import Mathlib

/-!
Verification development for the orca_prusa profile tooling.

The Python sources are embedded shallowly:
- Python dicts become association lists with insert-or-overwrite update
  (`Dict`), preserving insertion order and key uniqueness the way `dict` does.
- `converters/base.py` becomes `ConverterRegistry` with the four converter
  variants and the registration / conversion functions.
- `compare_coreone_profiles.py` becomes `IniConfig` plus the fueled resolver
  `resolveRec` (fuel models the Python call stack; a `none` result models a
  call that does not return within the given recursion budget).
- `profile_parser.py`, `profile_differ.py` and
  `converters/profile_converters.py` are embedded likewise below.
-/

set_option autoImplicit false

universe u

/-! ## Python dict as an association list -/

/-- A Python dict: an insertion-ordered association list. All dict values
built by the embedded code have unique keys, maintained by `dictSet`. -/
abbrev Dict (α : Type u) := List (String × α)

/-- Lookup of the first binding of `k`, mirroring `d[k]` / `d.get(k)`. -/
def dictGet {α : Type u} : Dict α → String → Option α
  | [], _ => none
  | p :: t, k => if p.1 == k then some p.2 else dictGet t k

/-- Membership test on keys, mirroring `k in d` on a Python dict. -/
def dictHas {α : Type u} (d : Dict α) (k : String) : Bool :=
  (dictGet d k).isSome

/-- Assignment `d[k] = v` on a Python dict: overwrite the binding in place if
the key is present, otherwise append at the end. -/
def dictSet {α : Type u} : Dict α → String → α → Dict α
  | [], k, v => [(k, v)]
  | p :: t, k, v => if p.1 == k then (k, v) :: t else p :: dictSet t k v

/-- `d.update(e)` on Python dicts: fold every binding of `e` into `d`. -/
def dictUpdate {α : Type u} (d e : Dict α) : Dict α :=
  e.foldl (fun acc p => dictSet acc p.1 p.2) d

/-- The key list of a dict, in insertion order. -/
def dictKeys {α : Type u} (d : Dict α) : List String :=
  d.map (fun p => p.1)

/-- Lookup of the last binding of `k`; on dicts with unique keys it agrees
with `dictGet`. -/
def dictGetLast {α : Type u} : Dict α → String → Option α
  | [], _ => none
  | p :: t, k =>
    match dictGetLast t k with
    | some v => some v
    | none => if p.1 == k then some p.2 else none

/-! ## Python string helpers -/

/-- Substring containment on character lists, mirroring Python `needle in hay`. -/
def charsContain (hay needle : List Char) : Bool :=
  match hay with
  | [] => needle.isEmpty
  | _ :: t => needle.isPrefixOf hay || charsContain t needle

/-- Python `needle in hay` on strings. -/
def strContains (hay needle : String) : Bool :=
  charsContain hay.toList needle.toList

/-- Python `s.strip(c)` for a single character argument. -/
def stripChar (s : String) (c : Char) : String :=
  String.mk (((s.toList.dropWhile (fun x => x == c)).reverse.dropWhile
    (fun x => x == c)).reverse)

/-- Core splitter on a single separator character, structurally recursive so
that concrete instances evaluate. -/
def splitChars (sep : Char) : List Char → List (List Char)
  | [] => [[]]
  | c :: t =>
    let r := splitChars sep t
    if c == sep then [] :: r
    else
      match r with
      | [] => [[c]]
      | h :: t2 => (c :: h) :: t2

/-- Python `s.split(sep)` for a one-character separator. -/
def pySplit (s : String) (sep : Char) : List String :=
  (splitChars sep s.toList).map String.mk

/-- Python `s.strip()` on the whitespace characters that occur in profile
data. -/
def pyStrip (s : String) : String :=
  String.mk (((s.toList.dropWhile Char.isWhitespace).reverse.dropWhile
    Char.isWhitespace).reverse)

/-- Python `s.startswith(pre)`. -/
def pyStartsWith (s pre : String) : Bool :=
  pre.toList.isPrefixOf s.toList

/-- Python `s.endswith(suf)`. -/
def pyEndsWith (s suf : String) : Bool :=
  suf.toList.reverse.isPrefixOf s.toList.reverse

/-- Python `s.upper()` on the ASCII names that occur in profile data. -/
def pyUpper (s : String) : String :=
  String.mk (s.toList.map Char.toUpper)

/-- Python `s.split(':')[0]`, used by the resolver to recover a section type. -/
def sectionTypeOf (s : String) : String :=
  (pySplit s (Char.ofNat 58)).headD ""

/-! ## converters/base.py: ConversionResult and the converter variants -/

/-- Result of a setting conversion; may contain several key-value pairs
(`ConversionResult` in `converters/base.py`). -/
structure ConversionResult (V : Type) where
  settings : Dict V
  needs_manual_conversion : List String
deriving Repr

/-- The empty result built by `ConversionResult.__init__`. -/
def ConversionResult.empty (V : Type) : ConversionResult V := ⟨[], []⟩

/-- `ConversionResult.add_setting`. -/
def ConversionResult.add_setting {V : Type} (r : ConversionResult V)
    (k : String) (v : V) : ConversionResult V :=
  { r with settings := dictSet r.settings k v }

/-- `ConversionResult.mark_needs_conversion`. -/
def ConversionResult.mark_needs_conversion {V : Type} (r : ConversionResult V)
    (k : String) : ConversionResult V :=
  { r with needs_manual_conversion := r.needs_manual_conversion ++ [k] }

/-- `ConversionResult.merge`: dict-update the settings, extend the list of
keys needing manual conversion. -/
def ConversionResult.merge {V : Type} (r other : ConversionResult V) :
    ConversionResult V :=
  ⟨dictUpdate r.settings other.settings,
   r.needs_manual_conversion ++ other.needs_manual_conversion⟩

/-- The four converter variants of `converters/base.py`:
`SimpleKeyConverter`, `MultiKeyConverter`, `SplitConverter`, `CustomConverter`.
Value transforms are arbitrary functions, as in the source. -/
inductive Converter (V : Type) where
  | simple (prusa_key orca_key : String) (value_transform : Option (V → V))
  | multi (prusa_keys : List String) (orca_key : String)
      (value_transform : Option (V → V))
  | split (prusa_key : String) (conversions : List (String × (V → V)))
  | custom (can_convert_func : String → V → Bool)
      (convert_func : String → V → ConversionResult V)

/-- The `can_convert` method of each converter variant. -/
def Converter.can_convert {V : Type} : Converter V → String → V → Bool
  | .simple pk _ _, key, _ => key == pk
  | .multi pks _ _, key, _ => pks.contains key
  | .split pk _, key, _ => key == pk
  | .custom can _, key, v => can key v

/-- The `convert` method of each converter variant. -/
def Converter.convert {V : Type} : Converter V → String → V → ConversionResult V
  | .simple _ ok tr, _, v =>
    (ConversionResult.empty V).add_setting ok (match tr with
      | some f => f v
      | none => v)
  | .multi _ ok tr, _, v =>
    (ConversionResult.empty V).add_setting ok (match tr with
      | some f => f v
      | none => v)
  | .split _ convs, _, v =>
    convs.foldl (fun r p => r.add_setting p.1 (p.2 v)) (ConversionResult.empty V)
  | .custom _ f, key, v => f key v

/-! ## converters/base.py: ConverterRegistry -/

/-- Union used to model Python `set.update`: membership is what matters. -/
def listSetUnion (a b : List String) : List String :=
  a ++ b.filter (fun x => !a.contains x)

/-- The registry state of `ConverterRegistry.__init__`. -/
structure ConverterRegistry (V : Type) where
  converters : List (Converter V)
  ignored_keys : List String
  orca_key_mappings : Dict String
  mutually_exclusive_groups : Dict (List String)

/-- A fresh registry. -/
def ConverterRegistry.empty (V : Type) : ConverterRegistry V := ⟨[], [], [], []⟩

/-- `ConverterRegistry.register`. -/
def ConverterRegistry.register {V : Type} (reg : ConverterRegistry V)
    (c : Converter V) : ConverterRegistry V :=
  { reg with converters := reg.converters ++ [c] }

/-- `ConverterRegistry.register_simple`. Raising `ValueError` is modelled by
`Except.error`; the Python message text is abbreviated to its fixed prefix. -/
def ConverterRegistry.register_simple {V : Type} (reg : ConverterRegistry V)
    (prusa_key orca_key : String) (value_transform : Option (V → V)) :
    Except String (ConverterRegistry V) :=
  let conv := Converter.simple prusa_key orca_key value_transform
  match dictGet reg.orca_key_mappings orca_key with
  | some existing_prusa_key =>
    if existing_prusa_key ≠ prusa_key then
      match dictGet reg.mutually_exclusive_groups orca_key with
      | some allowed_keys =>
        if prusa_key ∈ allowed_keys then
          .ok ({ reg with
                  orca_key_mappings :=
                    dictSet reg.orca_key_mappings orca_key prusa_key }.register conv)
        else .error "Duplicate mapping detected"
      | none => .error "Duplicate mapping detected"
    else .ok (reg.register conv)
  | none =>
    .ok ({ reg with
            orca_key_mappings :=
              dictSet reg.orca_key_mappings orca_key prusa_key }.register conv)

/-- `ConverterRegistry.register_multi`: registers a `MultiKeyConverter`
directly, with no duplicate-target check. -/
def ConverterRegistry.register_multi {V : Type} (reg : ConverterRegistry V)
    (prusa_keys : List String) (orca_key : String)
    (value_transform : Option (V → V)) : ConverterRegistry V :=
  reg.register (Converter.multi prusa_keys orca_key value_transform)

/-- `ConverterRegistry.register_split`. -/
def ConverterRegistry.register_split {V : Type} (reg : ConverterRegistry V)
    (prusa_key : String) (conversions : List (String × (V → V))) :
    ConverterRegistry V :=
  reg.register (Converter.split prusa_key conversions)

/-- `ConverterRegistry.register_custom`. -/
def ConverterRegistry.register_custom {V : Type} (reg : ConverterRegistry V)
    (can_convert_func : String → V → Bool)
    (convert_func : String → V → ConversionResult V) : ConverterRegistry V :=
  reg.register (Converter.custom can_convert_func convert_func)

/-- `ConverterRegistry.register_ignore`. -/
def ConverterRegistry.register_ignore {V : Type} (reg : ConverterRegistry V)
    (prusa_keys : List String) : ConverterRegistry V :=
  { reg with ignored_keys := listSetUnion reg.ignored_keys prusa_keys }

/-- `ConverterRegistry.register_mutually_exclusive`. -/
def ConverterRegistry.register_mutually_exclusive {V : Type}
    (reg : ConverterRegistry V) (orca_key : String) (prusa_keys : List String) :
    ConverterRegistry V :=
  match dictGet reg.mutually_exclusive_groups orca_key with
  | some existing =>
    let g := dictSet reg.mutually_exclusive_groups orca_key
      (listSetUnion existing prusa_keys)
    { reg with mutually_exclusive_groups := g }
  | none =>
    let g := dictSet reg.mutually_exclusive_groups orca_key prusa_keys.eraseDups
    { reg with mutually_exclusive_groups := g }

/-- One step of the converter loop inside `convert_setting`: apply and merge a
converter when it matches, and record that a converter was found. -/
def convStep {V : Type} (key : String) (v : V)
    (acc : ConversionResult V × Bool) (c : Converter V) :
    ConversionResult V × Bool :=
  if c.can_convert key v then (acc.1.merge (c.convert key v), true) else acc

/-- `ConverterRegistry.convert_setting`: ignored keys short-circuit to an
empty result; otherwise all matching converters are applied in registration
order and merged; if none matched the key is marked for manual conversion. -/
def ConverterRegistry.convert_setting {V : Type} (reg : ConverterRegistry V)
    (prusa_key : String) (prusa_value : V) : ConversionResult V :=
  if reg.ignored_keys.contains prusa_key then ConversionResult.empty V
  else
    let r := reg.converters.foldl (convStep prusa_key prusa_value)
      (ConversionResult.empty V, false)
    if r.2 then r.1 else r.1.mark_needs_conversion prusa_key

/-- `ConverterRegistry.convert_dict`: convert every field, dict-updating the
converted settings and concatenating the manual-conversion reports. -/
def ConverterRegistry.convert_dict {V : Type} (reg : ConverterRegistry V)
    (prusa_settings : Dict V) : Dict V × List String :=
  prusa_settings.foldl
    (fun acc kv =>
      let r := reg.convert_setting kv.1 kv.2
      (dictUpdate acc.1 r.settings, acc.2 ++ r.needs_manual_conversion))
    ([], [])

/-- The converters of a registry that match a given key and value. -/
def matchingConverters {V : Type} (reg : ConverterRegistry V) (key : String)
    (v : V) : List (Converter V) :=
  reg.converters.filter (fun c => c.can_convert key v)

/-- Whether an `Except` models a Python call that did not raise. -/
def exceptIsOk {e a : Type} : Except e a -> Bool
  | .ok _ => true
  | .error _ => false

/-- The target key of a Direct or Merge rule, and `none` for the other
variants; used to talk about duplicate-target registrations. -/
def directMergeTarget {V : Type} : Converter V -> Option String
  | .simple _ ok _ => some ok
  | .multi _ ok _ => some ok
  | .split _ _ => none
  | .custom _ _ => none

/-- Registering a Direct rule mapping source key "a" to target key "t" on a
fresh registry; this succeeds and claims "t" for "a". -/
def c1RegFirst : Except String (ConverterRegistry String) :=
  (ConverterRegistry.empty String).register_simple "a" "t" none

/-- On top of `c1RegFirst`, registering a Merge rule for the same target key
"t" from the different source key "b", with no mutually-exclusive group. -/
def c1Reg : ConverterRegistry String :=
  match c1RegFirst with
  | .ok r => r.register_multi ["b"] "t" none
  | .error _ => ConverterRegistry.empty String

/-- A registry with both a Direct rule and a Custom rule matching the source
key "a", used to exhibit fan-out conversion. -/
def regFan : ConverterRegistry String :=
  { converters :=
      [Converter.simple "a" "t1" none,
       Converter.custom (fun k _ => k == "a")
         (fun _ _ => ConversionResult.mk [("t1", "X"), ("t2", "Y")] [])],
    ignored_keys := [],
    orca_key_mappings := [],
    mutually_exclusive_groups := [] }

/-- A registry whose only converter source key is also registered as ignored,
used to exhibit ignore-precedence. -/
def regIgnored : ConverterRegistry String :=
  { converters := [Converter.simple "a" "t" none],
    ignored_keys := ["a"],
    orca_key_mappings := [("t", "a")],
    mutually_exclusive_groups := [] }

/-- Overwrite combinator for fold-based lookups: a value found later in the
fold wins over the accumulator. -/
def lastWins {a : Type u} (o acc : Option a) : Option a :=
  match o with
  | some w => some w
  | none => acc

/-! ## compare_coreone_profiles.py: the INI store and inheritance resolver -/

/-- A parsed INI section as stored by `configparser` with `optionxform=str`:
an ordered mapping of raw keys (case preserved) to string values, including
the `inherits` directive when the section has one. -/
abbrev IniSection := Dict String

/-- The parsed INI store `self.config`: ordered sections by full name. -/
abbrev IniConfig := Dict IniSection

/-- `self.config.sections()` in declaration order. -/
def sections (cfg : IniConfig) : List String :=
  cfg.map (fun q => q.1)

/-- The mutable state of one `resolve_profile` run: the `visited` set and the
accumulating `resolved` mapping, both shared across the whole recursion. The
entries of `resolved` are produced by a tagging function so that the same
recursion describes both `resolve_profile` (plain values) and
`resolve_profile_with_source` (value paired with originating section). -/
structure RState (α : Type) where
  visited : List String
  resolved : Dict α
deriving DecidableEq

/-- The final loop of `resolve_recursive`: apply the fields of the current
section on top of the accumulator, skipping the `inherits` directive. -/
def applyFields {α : Type} (tag : String → String → α) (current : String)
    (sec : IniSection) (resolved : Dict α) : Dict α :=
  sec.foldl
    (fun acc kv =>
      if kv.1 == "inherits" then acc else dictSet acc kv.1 (tag kv.2 current))
    resolved

/-- The wildcard test `parent_name.startswith('*') and parent_name.endswith('*')`. -/
def isWildcard (p : String) : Bool :=
  pyStartsWith p "*" && pyEndsWith p "*"

/-- The template sections matching a wildcard pattern: sections whose name
contains the stripped pattern and themselves start with `*`. -/
def wildcardMatches (cfg : IniConfig) (p : String) : List String :=
  (sections cfg).filter
    (fun s => strContains s (stripChar p '*') && pyStartsWith s "*")

/-- The lookup of a concrete parent name: exact section name first, then the
name prefixed with the current section type. -/
def parentLookup (cfg : IniConfig) (current p : String) : Option String :=
  if (dictGet cfg p).isSome then some p
  else
    let candidate := sectionTypeOf current ++ ":" ++ p
    if (dictGet cfg candidate).isSome then some candidate else none

/-- The parent names of an `inherits` value: split on `;` and strip. -/
def parseParents (inh : String) : List String :=
  (pySplit inh (Char.ofNat 59)).map pyStrip

/-- One step of the loop over the sections matched by a wildcard parent
inside `resolve_recursive`; `f` is the recursive call one stack level down.
A `none` accumulator (a nested call that never returned) is propagated. -/
def matchStep {α : Type} (f : String → RState α → Option (RState α))
    (acc : Option (RState α)) (m : String) : Option (RState α) :=
  match acc with
  | none => none
  | some st => f m st

/-- One step of the loop over parent names inside `resolve_recursive`:
wildcard parents expand to matching template sections, concrete parents are
looked up exactly or with the section-type prefix, and an unresolvable
parent is skipped with no contribution. -/
def parentStep {α : Type} (cfg : IniConfig) (current : String)
    (f : String → RState α → Option (RState α)) (acc : Option (RState α))
    (p : String) : Option (RState α) :=
  match acc with
  | none => none
  | some st =>
    if isWildcard p then (wildcardMatches cfg p).foldl (matchStep f) (some st)
    else
      match parentLookup cfg current p with
      | none => some st
      | some full_name => f full_name st

/-- `resolve_recursive` of `ProfileParser.resolve_profile` (and of
`resolve_profile_with_source`, by choice of `tag`). The fuel argument models
the Python call stack; `none` means the recursion did not return within the
given budget. A section already visited, or absent from the store,
contributes nothing; otherwise its parents are resolved first and its own
fields are applied last, skipping the `inherits` directive. -/
def resolveRec {α : Type} (cfg : IniConfig) (tag : String → String → α) :
    Nat → String → RState α → Option (RState α)
  | 0, _, _ => none
  | fuel + 1, current, st =>
    if st.visited.contains current then some st
    else
      match dictGet cfg current with
      | none => some st
      | some sec =>
        let st1 : RState α := ⟨st.visited ++ [current], st.resolved⟩
        let after :=
          match dictGet sec "inherits" with
          | none => some st1
          | some inh =>
            (parseParents inh).foldl
              (parentStep cfg current (fun n st2 => resolveRec cfg tag fuel n st2))
              (some st1)
        match after with
        | none => none
        | some st2 => some ⟨st2.visited, applyFields tag current sec st2.resolved⟩
termination_by structural fuel => fuel

/-- The tag used by `resolve_profile`: store the plain value. -/
def plainTag : String → String → String := fun v _ => v

/-- The tag used by `resolve_profile_with_source`: store the value together
with the section that defined it. -/
def sourceTag : String → String → String × String := fun v s => (v, s)

/-- The fuel every top-level resolution starts with; `resolveRec` visits each
unvisited section at most once along a call path, so this always suffices. -/
def initialFuel (cfg : IniConfig) : Nat :=
  cfg.length + 1

/-- `ProfileParser.resolve_profile`: a missing section resolves to the empty
mapping, otherwise the recursion runs from an empty visited set. -/
def resolve_profile (cfg : IniConfig) (section_name : String) :
    Option (Dict String) :=
  if (dictGet cfg section_name).isNone then some []
  else
    (resolveRec cfg plainTag (initialFuel cfg) section_name ⟨[], []⟩).map
      (fun st => st.resolved)

/-- `ProfileParser.resolve_profile_with_source`. -/
def resolve_profile_with_source (cfg : IniConfig) (section_name : String) :
    Option (Dict (String × String)) :=
  if (dictGet cfg section_name).isNone then some []
  else
    (resolveRec cfg sourceTag (initialFuel cfg) section_name ⟨[], []⟩).map
      (fun st => st.resolved)

/-- `ProfileParser.get_direct_settings`: the fields literally present in the
section, with the `inherits` directive removed. -/
def get_direct_settings (cfg : IniConfig) (section_name : String) : Dict String :=
  match dictGet cfg section_name with
  | none => []
  | some sec => sec.filter (fun kv => kv.1 != "inherits")

/-- `ProfileParser.get_inheritance_chain`: the immediate parents after
wildcard expansion, unresolvable names skipped. -/
def get_inheritance_chain (cfg : IniConfig) (section_name : String) :
    List String :=
  match dictGet cfg section_name with
  | none => []
  | some sec =>
    match dictGet sec "inherits" with
    | none => []
    | some inh =>
      (parseParents inh).foldl
        (fun chain p =>
          if isWildcard p then chain ++ wildcardMatches cfg p
          else
            match parentLookup cfg section_name p with
            | none => chain
            | some full_name => chain ++ [full_name])
        []

/-- The number of store sections not yet visited; it bounds the remaining
recursion depth of `resolveRec`, since every nested call first marks an
unvisited section as visited. -/
def unvisitedCount (cfg : IniConfig) (visited : List String) : Nat :=
  ((sections cfg).filter (fun s => !visited.contains s)).length

/-! ## converters/profile_converters.py: _resolve_inherited_settings -/

/-- One step of the parent loop of
`PrintProfileConverter._resolve_inherited_settings`: a parent name not in
`all_profiles` is skipped; otherwise the parent is resolved recursively, its
inherited settings merged first, then its own converted settings. The
function `f` is the recursive call one stack level down; a `none` (a nested
call that never returned) is propagated. -/
def inheritedStep (reg : ConverterRegistry String)
    (all_profiles : Dict (Dict String))
    (f : Dict String → Option (Dict String))
    (acc : Option (Dict String)) (p : String) : Option (Dict String) :=
  match acc with
  | none => none
  | some merged =>
    match dictGet all_profiles p with
    | none => some merged
    | some parent =>
      match f parent with
      | none => none
      | some parent_settings =>
        some (dictUpdate (dictUpdate merged parent_settings)
          (reg.convert_dict parent).1)

/-- `PrintProfileConverter._resolve_inherited_settings`, fueled: unlike
`resolve_profile` it keeps no visited set, so the fuel models the unbounded
Python call stack and `none` models a call that never returns. -/
def resolveInheritedRec (reg : ConverterRegistry String)
    (all_profiles : Dict (Dict String)) : Nat → Dict String → Option (Dict String)
  | 0, _ => none
  | fuel + 1, profile_data =>
    match dictGet profile_data "inherits" with
    | none => some []
    | some inh =>
      (parseParents inh).foldl
        (inheritedStep reg all_profiles
          (fun pd => resolveInheritedRec reg all_profiles fuel pd))
        (some [])

/-- A resolution that exhausts every stack budget: the Python original
recurses forever on such an input. -/
def inheritedDiverges (reg : ConverterRegistry String)
    (all_profiles : Dict (Dict String)) (profile_data : Dict String) : Prop :=
  ∀ fuel, resolveInheritedRec reg all_profiles fuel profile_data = none

/-! ## Concrete stores used to settle the claims -/

/-- A two-record store with mutual inheritance between A and B. -/
def cfgCycle : IniConfig :=
  [("A", [("inherits", "B"), ("x", "1")]),
   ("B", [("inherits", "A"), ("y", "2")])]

/-- The record A of the mutual-inheritance profile cache, as consumed by
`_resolve_inherited_settings`. -/
def profCycA : Dict String := [("name", "A"), ("inherits", "B")]

/-- The record B of the mutual-inheritance profile cache. -/
def profCycB : Dict String := [("name", "B"), ("inherits", "A")]

/-- The profile cache with mutual inheritance between A and B, keyed by name
as `set_all_profiles` builds it. -/
def cycProfiles : Dict (Dict String) :=
  [("A", profCycA), ("B", profCycB)]

/-- A store where C inherits [A, B] and the earlier parent A itself inherits
from the later parent B; A and B both define k directly with different
values and C does not define k. -/
def cfgShadow : IniConfig :=
  [("C", [("inherits", "A;B")]),
   ("A", [("inherits", "B"), ("k", "1")]),
   ("B", [("k", "2")])]

/-- A store where C inherits [A, B] with independent parents that both
define k directly with different values. -/
def cfgTwoParents : IniConfig :=
  [("C", [("inherits", "A;B")]),
   ("A", [("k", "1")]),
   ("B", [("k", "2")])]

/-- A store whose record C lists a parent name that matches no section,
neither exactly nor with the type prefix, followed by a real parent. -/
def cfgMissing : IniConfig :=
  [("C", [("inherits", "ghost;B"), ("c", "3")]),
   ("B", [("k", "2")])]

/-! ## profile_parser.py: the line-oriented profile parser -/

/-- A parsed field value of `profile_parser.ProfileParser.parse`: a raw
string, or a list of strings for the array-valued `default_materials` key. -/
inductive PPVal where
  | str (s : String)
  | list (l : List String)
deriving DecidableEq, Repr

/-- An entry of the parse output dict: the singleton vendor block, or the
list of blocks of one section type. -/
inductive OutVal where
  | vendor (d : Dict PPVal)
  | blocks (bs : List (Dict PPVal))
deriving DecidableEq, Repr

/-- Python `line[1:-1]`. -/
def sliceInner (s : String) : String :=
  String.mk ((s.toList.drop 1).dropLast)

/-- Python `line.split(c, 1)`: the text before the first separator and the
text after it. -/
def splitFirst (s : String) (c : Char) : String × String :=
  match splitChars c s.toList with
  | [] => (s, "")
  | h :: t => (String.mk h, String.intercalate (String.mk [c]) (t.map String.mk))

/-- Saving the finished block into the output dict: the vendor block is
assigned directly, other blocks are appended to their section-type list. A
`none` models the crash that Python would raise if the slot did not hold a
list. -/
def flushBlock (output : Dict OutVal) (bt : String) (blk : Dict PPVal) :
    Option (Dict OutVal) :=
  if bt == "vendor" then some (dictSet output "vendor" (OutVal.vendor blk))
  else
    match dictGet output bt with
    | none => some (dictSet output bt (OutVal.blocks [blk]))
    | some (OutVal.blocks bs) => some (dictSet output bt (OutVal.blocks (bs ++ [blk])))
    | some (OutVal.vendor _) => none

/-- The in-progress state of the parse loop: the output so far, the block
being accumulated, and its type when a section header has been seen. -/
structure PState where
  output : Dict OutVal
  current_block : Dict PPVal
  block_type : Option String
deriving DecidableEq

/-- One line of `ProfileParser.parse`: comments and blanks are skipped, a
bracketed header finishes the previous block and opens a new one (any line
containing "vendor" opens the vendor block; otherwise the type and name come
from splitting the bracket interior on the colon, and a missing name models
the IndexError crash as `none`), a line containing `=` stores a field
(splitting `default_materials` values on semicolons), and any other line is
silently ignored. -/
def parseLine (st : PState) (raw : String) : Option PState :=
  let line := pyStrip raw
  if pyStartsWith line ";" || pyStartsWith line "#" || line == "" then some st
  else if pyStartsWith line "[" && pyEndsWith line "]" then
    let flushed :=
      match st.block_type with
      | none => some (st.output, st.current_block)
      | some bt =>
        match flushBlock st.output bt st.current_block with
        | none => none
        | some out2 => some (out2, ([] : Dict PPVal))
    match flushed with
    | none => none
    | some (out2, cur2) =>
      if strContains line "vendor" then some ⟨out2, cur2, some "vendor"⟩
      else
        let inner := sliceInner line
        let parts := pySplit inner (Char.ofNat 58)
        match parts.drop 1 with
        | [] => none
        | namePart :: _ =>
          some ⟨out2,
            dictSet cur2 "name" (PPVal.str (pyStrip namePart)),
            some (pyStrip (parts.headD ""))⟩
  else if strContains line "=" then
    let kv := splitFirst line (Char.ofNat 61)
    let key := pyStrip kv.1
    let value := pyStrip kv.2
    let value2 :=
      if key == "default_materials" then
        PPVal.list ((pySplit value (Char.ofNat 59)).map pyStrip)
      else PPVal.str value
    some ⟨st.output, dictSet st.current_block key value2, st.block_type⟩
  else some st

/-- `ProfileParser.parse` over the lines of the file: run the line loop, then
save the last block. -/
def profile_parse (lines : List String) : Option (Dict OutVal) :=
  match lines.foldl (fun acc l => acc.bind (fun st => parseLine st l))
      (some ⟨[], [], none⟩) with
  | none => none
  | some st =>
    match st.block_type with
    | none => some st.output
    | some bt => flushBlock st.output bt st.current_block

/-! ## profile_differ.py: value normalization and profile comparison -/

/-- A JSON-ish profile value as handled by `ProfileDiffer`: a string, a
number (Python ints and floats both modelled as exact rationals, which
agrees with Python numeric equality on the decimal literals that occur in
profiles), or a list. -/
inductive PyVal where
  | str (s : String)
  | num (q : Rat)
  | list (l : List PyVal)

/-- The numeric value of a nonempty all-digit character run. -/
def digitsToNat? (cs : List Char) : Option Nat :=
  if cs.isEmpty then none
  else if cs.all Char.isDigit then
    some (cs.foldl (fun n c => n * 10 + (c.toNat - 48)) 0)
  else none

/-- Python `int(s)` on decimal strings: surrounding whitespace, an optional
sign, then digits. (Underscore separators are not modelled.) -/
def pyParseInt (s : String) : Option Int :=
  match (pyStrip s).toList with
  | '+' :: rest => (digitsToNat? rest).map Int.ofNat
  | '-' :: rest => (digitsToNat? rest).map (fun n => -(Int.ofNat n))
  | cs => (digitsToNat? cs).map Int.ofNat

/-- Powers of ten, structurally recursive so concrete instances evaluate. -/
def pow10 : Nat → Nat
  | 0 => 1
  | k + 1 => 10 * pow10 k

/-- Python `float(s)` on decimal literals: optional sign, digits with an
optional decimal point, and an optional exponent part introduced by `e` or
`E`. The special values inf and nan, and underscore separators, are not
modelled; the result is the exact rational the literal denotes. -/
def pyParseFloat (s : String) : Option Rat :=
  let t := (pyStrip s).toList
  let sb : Int × List Char :=
    match t with
    | '+' :: rest => (1, rest)
    | '-' :: rest => (-1, rest)
    | rest => (1, rest)
  let body := sb.2.map (fun c => if c == 'E' then Char.ofNat 101 else c)
  let withExp : Option (List Char × Int) :=
    match splitChars (Char.ofNat 101) body with
    | [m] => some (m, 0)
    | [m, e] =>
      (match e with
       | '+' :: r => (digitsToNat? r).map (fun n => (m, Int.ofNat n))
       | '-' :: r => (digitsToNat? r).map (fun n => (m, -(Int.ofNat n)))
       | r => (digitsToNat? r).map (fun n => (m, Int.ofNat n)))
    | _ => none
  match withExp with
  | none => none
  | some (m, ex) =>
    let mantissa : Option (Nat × Nat) :=
      match splitChars (Char.ofNat 46) m with
      | [ipart] => (digitsToNat? ipart).map (fun n => (n, 0))
      | [ipart, fpart] =>
        if ipart.isEmpty && fpart.isEmpty then none
        else if ipart.all Char.isDigit && fpart.all Char.isDigit then
          some ((ipart ++ fpart).foldl (fun n c => n * 10 + (c.toNat - 48)) 0,
            fpart.length)
        else none
      | _ => none
    match mantissa with
    | none => none
    | some (mant, scale) =>
      let e2 : Int := ex - Int.ofNat scale
      if 0 ≤ e2 then
        some (mkRat (sb.1 * Int.ofNat mant * Int.ofNat (pow10 e2.toNat)) 1)
      else some (mkRat (sb.1 * Int.ofNat mant) (pow10 (-e2).toNat))

mutual
/-- `ProfileDiffer._normalize_value`: a string containing a decimal point is
parsed as a float, any other string as an int; on failure the string is
stripped; lists are normalized element-wise; other values pass through. -/
def normalize_value : PyVal → PyVal
  | .str s =>
    if strContains s "." then
      match pyParseFloat s with
      | some q => .num q
      | none => .str (pyStrip s)
    else
      match pyParseInt s with
      | some n => .num (mkRat n 1)
      | none => .str (pyStrip s)
  | .num q => .num q
  | .list l => .list (normalize_list l)

/-- Element-wise normalization of a list value. -/
def normalize_list : List PyVal → List PyVal
  | [] => []
  | v :: t => normalize_value v :: normalize_list t
end

mutual
/-- Modelled from the spec: the specification describes value normalization
as attempting an integer parse first and then a float parse on every
numeric-looking string, with no decimal-point dispatch; this definition
follows those words for comparison against `normalize_value`. -/
def normalize_value_spec : PyVal → PyVal
  | .str s =>
    match pyParseInt s with
    | some n => .num (mkRat n 1)
    | none =>
      match pyParseFloat s with
      | some q => .num q
      | none => .str (pyStrip s)
  | .num q => .num q
  | .list l => .list (normalize_list_spec l)

/-- Element-wise spec-modelled normalization. -/
def normalize_list_spec : List PyVal → List PyVal
  | [] => []
  | v :: t => normalize_value_spec v :: normalize_list_spec t
end

mutual
/-- Python `==` on normalized profile values: numbers compare numerically
(Python ints and floats compare across types), strings compare as strings,
lists compare element-wise, and values of different kinds are unequal. -/
def pyValBeq : PyVal → PyVal → Bool
  | .str a, .str b => a == b
  | .num a, .num b => a == b
  | .list a, .list b => pyValListBeq a b
  | _, _ => false

/-- Element-wise Python `==` on list values. -/
def pyValListBeq : List PyVal → List PyVal → Bool
  | [], [] => true
  | a :: as1, b :: bs1 => pyValBeq a b && pyValListBeq as1 bs1
  | _, _ => false
end

/-- One step of the first loop of `ProfileDiffer.compare_profiles`: a key
absent from the reference profile is recorded in `only_in_converted`; a key
whose normalized values differ is recorded in `different_values`. -/
def cmpStep (orca : Dict PyVal) (acc : Dict PyVal × Dict (PyVal × PyVal))
    (kv : String × PyVal) : Dict PyVal × Dict (PyVal × PyVal) :=
  match dictGet orca kv.1 with
  | none => (dictSet acc.1 kv.1 kv.2, acc.2)
  | some ov =>
    if pyValBeq (normalize_value kv.2) (normalize_value ov) then acc
    else (acc.1, dictSet acc.2 kv.1 (kv.2, ov))

/-- The comparison core of `ProfileDiffer.compare_profiles` on two resolved
profiles: returns (only_in_converted, only_in_orca, different_values), the
entries of `different_values` pairing the converted value with the
reference value. -/
def comparePairs (converted orca : Dict PyVal) :
    Dict PyVal × Dict PyVal × Dict (PyVal × PyVal) :=
  let first := converted.foldl (cmpStep orca) ([], [])
  let only_in_orca := orca.foldl
    (fun acc kv =>
      if (dictGet converted kv.1).isNone then dictSet acc kv.1 kv.2 else acc)
    []
  (first.1, only_in_orca, first.2)

/-! ## compare_coreone_profiles.py: ProfileComparer -/

/-- Python `set.add` on a membership list. -/
def setAdd (l : List String) (x : String) : List String :=
  if l.contains x then l else l ++ [x]

/-- `ProfileParser.get_sections_by_type`. -/
def get_sections_by_type (cfg : IniConfig) (section_type : String) :
    List String :=
  (sections cfg).filter (fun s => pyStartsWith s (section_type ++ ":"))

/-- `ProfileParser.get_coreone_sections`. -/
def get_coreone_sections (cfg : IniConfig) (section_type : String) :
    List String :=
  (get_sections_by_type cfg section_type).filter
    (fun s => strContains (pyUpper s) "@COREONE")

/-- `ProfileComparer.build_inheritance_tree`: the parent-to-children map over
the CORE One sections of one type. -/
def build_inheritance_tree (cfg : IniConfig) (section_type : String) :
    Dict (List String) :=
  (get_coreone_sections cfg section_type).foldl
    (fun children sec =>
      (get_inheritance_chain cfg sec).foldl
        (fun ch parent =>
          match dictGet ch parent with
          | none => dictSet ch parent [sec]
          | some s => dictSet ch parent (setAdd s sec))
        children)
    []

/-- The worklist loop of `ProfileComparer.get_all_descendants`: pop from the
end of `to_visit`, and push every child not yet collected. The fuel bounds
the iterations; `descFuel` always suffices because each push consumes one
edge of the children map. -/
def descendantsLoop (children_map : Dict (List String)) :
    Nat → List String → List String → List String
  | 0, _, descendants => descendants
  | fuel + 1, to_visit, descendants =>
    if to_visit.isEmpty then descendants
    else
      let current := (to_visit.getLast?).getD ""
      let rest := to_visit.dropLast
      match dictGet children_map current with
      | none => descendantsLoop children_map fuel rest descendants
      | some children =>
        let step := children.foldl
          (fun (acc : List String × List String) child =>
            if acc.1.contains child then acc
            else (acc.1 ++ [child], acc.2 ++ [child]))
          (descendants, rest)
        descendantsLoop children_map fuel step.2 step.1

/-- An iteration budget that always covers the worklist loop. -/
def descFuel (children_map : Dict (List String)) : Nat :=
  2 + children_map.foldl (fun n p => n + p.2.length) 0

/-- `ProfileComparer.get_all_descendants`. -/
def get_all_descendants (sec : String) (children_map : Dict (List String)) :
    List String :=
  descendantsLoop children_map (descFuel children_map) [sec] []

/-- Insertion into a sorted list, for Python `sorted` on strings. -/
def insertSorted (x : String) : List String → List String
  | [] => [x]
  | y :: t => if x ≤ y then x :: y :: t else y :: insertSorted x t

/-- Python `sorted` on a list of strings. -/
def sortStrings (l : List String) : List String :=
  l.foldl (fun acc x => insertSorted x acc) []

/-- The per-record change set built by `ProfileComparer.compare_profiles`:
`added` and `removed` carry (value, source) from the source-attributed
resolution, `modified` carries (old direct value, new direct value, old
source, new source); the constant `direct: True` flags of the Python dict
entries are left implicit. -/
structure ProfileChanges where
  added : Dict (Option String × Option String)
  removed : Dict (Option String × Option String)
  modified : Dict (String × String × Option String × Option String)
  direct_changes : List String
  affects : List String
deriving DecidableEq, Repr

/-- The fresh change set of one record. -/
def emptyChanges : ProfileChanges := ⟨[], [], [], [], []⟩

/-- One key of the classification loop inside
`ProfileComparer.compare_profiles`: a key is recorded as added, removed or
modified only through the record's own direct field sets, and every
recorded key also enters `direct_changes`. -/
def classifyStep (old_profile new_profile : Dict (String × String))
    (old_direct new_direct : Dict String) (pc : ProfileChanges) (key : String) :
    ProfileChanges :=
  let old_val_source := dictGet old_profile key
  let new_val_source := dictGet new_profile key
  let old_val := old_val_source.map (fun p => p.1)
  let new_val := new_val_source.map (fun p => p.1)
  let old_source := old_val_source.map (fun p => p.2)
  let new_source := new_val_source.map (fun p => p.2)
  let in_old_direct := dictHas old_direct key
  let in_new_direct := dictHas new_direct key
  if !in_old_direct && in_new_direct then
    { pc with added := dictSet pc.added key (new_val, new_source),
              direct_changes := setAdd pc.direct_changes key }
  else if in_old_direct && !in_new_direct then
    { pc with removed := dictSet pc.removed key (old_val, old_source),
              direct_changes := setAdd pc.direct_changes key }
  else if in_old_direct && in_new_direct &&
      !((dictGet old_direct key) == (dictGet new_direct key)) then
    let entry := ((dictGet old_direct key).getD "",
      (dictGet new_direct key).getD "", old_source, new_source)
    { pc with modified := dictSet pc.modified key entry,
              direct_changes := setAdd pc.direct_changes key }
  else pc

/-- The per-record classification of `ProfileComparer.compare_profiles`: both
generations are resolved with source attribution (total by
`resolve_profile_with_source_isSome`, so the default never fires), the
direct field sets are read, and every key of either resolved profile is
classified. The key set is traversed in old-then-new order, standing in for
the arbitrary iteration order of the Python set union. -/
def classifySection (cfgO cfgN : IniConfig) (sec : String) : ProfileChanges :=
  let old_profile := (resolve_profile_with_source cfgO sec).getD []
  let new_profile := (resolve_profile_with_source cfgN sec).getD []
  let old_direct := get_direct_settings cfgO sec
  let new_direct := get_direct_settings cfgN sec
  let all_keys := dictKeys old_profile ++
    (dictKeys new_profile).filter (fun k => !(dictKeys old_profile).contains k)
  all_keys.foldl (classifyStep old_profile new_profile old_direct new_direct)
    emptyChanges

/-- The result of `ProfileComparer.compare_profiles`; the added and removed
name sets come out sorted, as in the report. -/
structure ComparisonResult where
  added_profiles : List String
  removed_profiles : List String
  changed_profiles : Dict ProfileChanges
  inheritance_tree : Dict (List String)
deriving DecidableEq, Repr

/-- `ProfileComparer.compare_profiles`: set differences of the CORE One
section names give added and removed profiles; every common record is
classified and included in `changed_profiles` exactly when it has at least
one added, removed or modified entry, with its transitive descendants in
the new generation attached as `affects`. The common records are traversed
in old-generation order, standing in for the arbitrary iteration order of
the Python set intersection; the old-generation inheritance tree, built and
left unused by the source, is omitted. -/
def compare_profiles (cfgO cfgN : IniConfig) (section_type : String) :
    ComparisonResult :=
  let old_sections := get_coreone_sections cfgO section_type
  let new_sections := get_coreone_sections cfgN section_type
  let added := new_sections.filter (fun s => !old_sections.contains s)
  let removed := old_sections.filter (fun s => !new_sections.contains s)
  let common := old_sections.filter (fun s => new_sections.contains s)
  let new_children := build_inheritance_tree cfgN section_type
  let changes := common.foldl
    (fun acc sec =>
      let pc := classifySection cfgO cfgN sec
      if pc.added ≠ [] ∨ pc.removed ≠ [] ∨ pc.modified ≠ [] then
        dictSet acc sec
          { pc with affects := sortStrings (get_all_descendants sec new_children) }
      else acc)
    []
  { added_profiles := sortStrings added,
    removed_profiles := sortStrings removed,
    changed_profiles := changes,
    inheritance_tree := new_children }

/-- The old generation of the descendant-impact store: P defines k directly,
Q only inherits it. -/
def cfgC3old : IniConfig :=
  [("print:P @COREONE", [("k", "1")]),
   ("print:Q @COREONE", [("inherits", "P @COREONE")])]

/-- The new generation: only the ancestor record P changed k. -/
def cfgC3new : IniConfig :=
  [("print:P @COREONE", [("k", "2")]),
   ("print:Q @COREONE", [("inherits", "P @COREONE")])]

/-- The change set computed for record P between the two generations. -/
def c3PChanges : ProfileChanges :=
  ⟨[], [],
   [("k", ("1", "2", some "print:P @COREONE", some "print:P @COREONE"))],
   ["k"], ["print:Q @COREONE"]⟩

/-- The invariant of the classification loop: every key recorded as added,
removed or modified is also recorded as a direct change and is literally
present in at least one generation of the record's own direct fields. -/
def DirectInv (od nd : Dict String) (pc : ProfileChanges) : Prop :=
  ∀ k, (k ∈ dictKeys pc.added ∨ k ∈ dictKeys pc.removed ∨
        k ∈ dictKeys pc.modified) →
    k ∈ pc.direct_changes ∧ (dictHas od k = true ∨ dictHas nd k = true)

/-! ## Lemmas and claim theorems -/

@[simp] theorem dictGet_nil {α : Type u} (k : String) :
    dictGet ([] : Dict α) k = none := rfl

theorem dictGet_cons {α : Type u} (p : String × α) (t : Dict α) (k : String) :
    dictGet (p :: t) k = if p.1 == k then some p.2 else dictGet t k := rfl

theorem dictGet_dictSet {α : Type u} (d : Dict α) (k k' : String) (v : α) :
    dictGet (dictSet d k v) k' = if k == k' then some v else dictGet d k' := by
  induction d with
  | nil =>
    by_cases h : k = k' <;> simp [dictSet, dictGet, h]
  | cons p t ih =>
    by_cases hp : p.1 = k
    · by_cases h : k = k' <;> simp [dictSet, dictGet, hp, h]
    · by_cases h : k = k'
      · subst h
        simp [dictSet, dictGet, hp, ih]
      · have h' : ¬ k' = k := fun hc => h hc.symm
        by_cases hq : p.1 = k' <;> simp [dictSet, dictGet, hp, h, h', hq, ih]

theorem dictGet_dictUpdate {α : Type u} (e d : Dict α) (k : String) :
    dictGet (dictUpdate d e) k =
      match dictGetLast e k with
      | some v => some v
      | none => dictGet d k := by
  induction e generalizing d with
  | nil => simp [dictUpdate, dictGetLast]
  | cons p t ih =>
    have step : dictUpdate d (p :: t) = dictUpdate (dictSet d p.1 p.2) t := rfl
    rw [step, ih]
    rcases h : dictGetLast t k with _ | v
    · simp only [dictGetLast, h]
      rw [dictGet_dictSet]
      by_cases hp : p.1 = k <;> simp [hp]
    · simp [dictGetLast, h]

theorem dictGetLast_eq_none_of_not_mem {α : Type u} (d : Dict α) (k : String)
    (h : k ∉ dictKeys d) : dictGetLast d k = none := by
  induction d with
  | nil => rfl
  | cons p t ih =>
    have hp : ¬ p.1 = k := fun hc => h (by simp [dictKeys, hc])
    have ht : k ∉ dictKeys t := fun hc => h (by simp [dictKeys] at hc ⊢; exact Or.inr hc)
    simp [dictGetLast, ih ht, hp]

theorem dictGet_eq_none_of_not_mem {α : Type u} (d : Dict α) (k : String)
    (h : k ∉ dictKeys d) : dictGet d k = none := by
  induction d with
  | nil => rfl
  | cons p t ih =>
    have hp : ¬ p.1 = k := fun hc => h (by simp [dictKeys, hc])
    have ht : k ∉ dictKeys t := fun hc => h (by simp [dictKeys] at hc ⊢; exact Or.inr hc)
    simp [dictGet, ih ht, hp]

theorem dictGetLast_eq_dictGet {α : Type u} (d : Dict α) (k : String)
    (h : (dictKeys d).Nodup) : dictGetLast d k = dictGet d k := by
  induction d with
  | nil => rfl
  | cons p t ih =>
    have hnd : (dictKeys t).Nodup := (List.nodup_cons.mp h).2
    have hni : p.1 ∉ dictKeys t := (List.nodup_cons.mp h).1
    by_cases hp : p.1 = k
    · have : dictGetLast t k = none :=
        dictGetLast_eq_none_of_not_mem t k (hp ▸ hni)
      simp [dictGetLast, dictGet, this, hp]
    · rcases hdg : dictGet t k with _ | v <;>
        simp [dictGetLast, dictGet, hp, ih hnd, hdg]

theorem dictGet_mem_keys {α : Type u} (d : Dict α) (k : String) (v : α)
    (h : dictGet d k = some v) : k ∈ dictKeys d := by
  induction d with
  | nil => simp [dictGet] at h
  | cons p t ih =>
    by_cases hp : p.1 = k
    · simp [dictKeys, hp]
    · simp only [dictGet, hp] at h
      simp only [beq_iff_eq, if_neg hp] at h
      exact List.mem_cons_of_mem _ (ih h)

/-! ### Registry lemmas -/

theorem foldl_congr_mem {β γ : Type} :
    ∀ (l : List β) (f g : γ → β → γ) (init : γ),
      (∀ c ∈ l, ∀ acc, f acc c = g acc c) →
      l.foldl f init = l.foldl g init
  | [], _, _, _, _ => rfl
  | c :: t, f, g, init, h => by
    simp only [List.foldl_cons]
    rw [h c (List.mem_cons_self c t) init]
    exact foldl_congr_mem t f g (g init c)
      (fun x hx acc => h x (List.mem_cons_of_mem c hx) acc)

theorem filter_eq_nil_iff_any_false {β : Type} (p : β → Bool) (cs : List β) :
    cs.filter p = [] ↔ cs.any p = false := by
  induction cs with
  | nil => simp
  | cons c t ih =>
    by_cases h : p c <;> simp [List.filter_cons, List.any_cons, h, ih]

theorem dictGet_isSome_iff_mem {α : Type u} (d : Dict α) (t : String) :
    (dictGet d t).isSome = true ↔ t ∈ dictKeys d := by
  induction d with
  | nil => simp [dictGet, dictKeys]
  | cons p tl ih =>
    by_cases hp : p.1 = t
    · simp [dictGet, dictKeys, hp]
    · simp [dictGet, dictKeys, hp] at ih ⊢
      rw [ih]
      constructor
      · exact fun hh => Or.inr hh
      · rintro (hh | hh)
        · exact absurd hh.symm hp
        · exact hh

theorem mem_keys_dictSet {α : Type u} (d : Dict α) (k t : String) (v : α) :
    t ∈ dictKeys (dictSet d k v) ↔ t ∈ dictKeys d ∨ t = k := by
  have h1 := dictGet_isSome_iff_mem (dictSet d k v) t
  have h2 := dictGet_isSome_iff_mem d t
  rw [← h1, ← h2, dictGet_dictSet]
  by_cases hk : k = t
  · subst hk
    simp
  · have hk' : ¬ t = k := fun hc => hk hc.symm
    simp [hk, hk']

theorem mem_keys_dictUpdate {α : Type u} (e d : Dict α) (t : String) :
    t ∈ dictKeys (dictUpdate d e) ↔ t ∈ dictKeys d ∨ t ∈ dictKeys e := by
  induction e generalizing d with
  | nil => simp [dictUpdate, dictKeys]
  | cons p tl ih =>
    have step : dictUpdate d (p :: tl) = dictUpdate (dictSet d p.1 p.2) tl := rfl
    rw [step, ih, mem_keys_dictSet]
    have : dictKeys (p :: tl) = p.1 :: dictKeys tl := rfl
    rw [this]
    simp only [List.mem_cons]
    tauto

theorem convert_foldl {V : Type} (key : String) (v : V) (cs : List (Converter V))
    (acc : ConversionResult V × Bool) :
    cs.foldl (convStep key v) acc =
      ((cs.filter (fun c => c.can_convert key v)).foldl
          (fun r c => r.merge (c.convert key v)) acc.1,
       acc.2 || cs.any (fun c => c.can_convert key v)) := by
  induction cs generalizing acc with
  | nil => simp
  | cons c t ih =>
    by_cases h : c.can_convert key v
    · simp [List.foldl_cons, List.filter_cons, List.any_cons, h, convStep, ih]
    · simp [List.foldl_cons, List.filter_cons, List.any_cons, h, convStep, ih]

theorem merge_fold_settings {V : Type} (key : String) (v : V) :
    ∀ (cs : List (Converter V)) (init : ConversionResult V),
      (cs.foldl (fun r c => r.merge (c.convert key v)) init).settings =
        cs.foldl (fun d c => dictUpdate d (c.convert key v).settings) init.settings
  | [], _ => rfl
  | c :: t, init => by
    simp only [List.foldl_cons]
    rw [merge_fold_settings key v t]
    rfl

theorem merge_fold_needs {V : Type} (key : String) (v : V) :
    ∀ (cs : List (Converter V)) (init : ConversionResult V),
      (cs.foldl (fun r c => r.merge (c.convert key v)) init).needs_manual_conversion =
        init.needs_manual_conversion ++
          (cs.map (fun c => (c.convert key v).needs_manual_conversion)).flatten
  | [], _ => by simp
  | c :: t, init => by
    simp only [List.foldl_cons, List.map_cons, List.flatten_cons]
    rw [merge_fold_needs key v t]
    simp [ConversionResult.merge]

theorem matchingConverters_def {V : Type} (reg : ConverterRegistry V)
    (key : String) (v : V) :
    matchingConverters reg key v =
      reg.converters.filter (fun c => c.can_convert key v) := rfl

theorem convert_setting_settings {V : Type} (reg : ConverterRegistry V)
    (key : String) (v : V) (h : reg.ignored_keys.contains key = false) :
    (reg.convert_setting key v).settings =
      (matchingConverters reg key v).foldl
        (fun d c => dictUpdate d (c.convert key v).settings) [] := by
  unfold ConverterRegistry.convert_setting
  rw [if_neg (by rw [h]; decide)]
  simp only [convert_foldl, matchingConverters_def]
  by_cases hf : reg.converters.any (fun c => c.can_convert key v) <;>
    simp [hf, ConversionResult.mark_needs_conversion, merge_fold_settings,
      ConversionResult.empty]

theorem convert_setting_needs {V : Type} (reg : ConverterRegistry V)
    (key : String) (v : V) (h : reg.ignored_keys.contains key = false) :
    (reg.convert_setting key v).needs_manual_conversion =
      ((matchingConverters reg key v).map
        (fun c => (c.convert key v).needs_manual_conversion)).flatten ++
      (if reg.converters.any (fun c => c.can_convert key v) then [] else [key]) := by
  unfold ConverterRegistry.convert_setting
  rw [if_neg (by rw [h]; decide)]
  simp only [convert_foldl, matchingConverters_def]
  by_cases hf : reg.converters.any (fun c => c.can_convert key v) <;>
    simp [hf, ConversionResult.mark_needs_conversion, merge_fold_needs,
      ConversionResult.empty]

theorem dictGet_foldl_dictUpdate {α : Type u} (rs : List (Dict α)) (d : Dict α)
    (k : String) :
    dictGet (rs.foldl dictUpdate d) k =
      rs.foldl (fun acc e => lastWins (dictGetLast e k) acc) (dictGet d k) := by
  induction rs generalizing d with
  | nil => rfl
  | cons e t ih =>
    simp only [List.foldl_cons]
    rw [ih, dictGet_dictUpdate]
    rfl

theorem mem_keys_foldl_dictUpdate {α : Type u} (rs : List (Dict α)) (d : Dict α)
    (t : String) :
    t ∈ dictKeys (rs.foldl dictUpdate d) ↔
      t ∈ dictKeys d ∨ ∃ e ∈ rs, t ∈ dictKeys e := by
  induction rs generalizing d with
  | nil => simp
  | cons e tl ih =>
    simp only [List.foldl_cons]
    rw [ih, mem_keys_dictUpdate]
    constructor
    · rintro ((h | h) | ⟨e', he', ht⟩)
      · exact Or.inl h
      · exact Or.inr ⟨e, List.mem_cons_self e tl, h⟩
      · exact Or.inr ⟨e', List.mem_cons_of_mem e he', ht⟩
    · rintro (h | ⟨e', he', ht⟩)
      · exact Or.inl (Or.inl h)
      · rcases List.mem_cons.mp he' with h1 | h1
        · exact Or.inl (Or.inr (h1 ▸ ht))
        · exact Or.inr ⟨e', h1, ht⟩

theorem foldl_update_map {V : Type} (key : String) (v : V) :
    ∀ (cs : List (Converter V)) (init : Dict V),
      cs.foldl (fun d c => dictUpdate d (c.convert key v).settings) init =
        (cs.map (fun c => (c.convert key v).settings)).foldl dictUpdate init
  | [], _ => rfl
  | c :: t, init => by
    simp only [List.foldl_cons, List.map_cons]
    exact foldl_update_map key v t _

theorem foldl_lastSome_map {V : Type} (key : String) (v : V) (t : String) :
    ∀ (cs : List (Converter V)) (init : Option V),
      (cs.map (fun c => (c.convert key v).settings)).foldl
        (fun acc e => lastWins (dictGetLast e t) acc) init =
      cs.foldl
        (fun acc c => lastWins (dictGetLast (c.convert key v).settings t) acc) init
  | [], _ => rfl
  | c :: tl, init => by
    simp only [List.foldl_cons, List.map_cons]
    exact foldl_lastSome_map key v t tl _

/-! ### Claim C4: conversion is a fan-out over all matching rules -/

/-- C4: for a source key that is not ignored, every registered converter whose
predicate matches is applied and the resulting target pairs are merged into
one result, a later-applied rule overwriting an earlier one on a target-key
collision; a target key appears in the result exactly when some matching rule
produces it. The uniqueness hypothesis on each converter result reflects that
Python converters return their settings in a dict. -/
theorem convert_setting_fanout {V : Type} (reg : ConverterRegistry V)
    (key : String) (v : V)
    (hig : reg.ignored_keys.contains key = false)
    (hwf : ∀ c ∈ reg.converters, (dictKeys (c.convert key v).settings).Nodup) :
    (∀ t, dictGet (reg.convert_setting key v).settings t =
        (matchingConverters reg key v).foldl
          (fun acc c => lastWins (dictGet (c.convert key v).settings t) acc) none)
    ∧ (∀ t, t ∈ dictKeys (reg.convert_setting key v).settings ↔
        ∃ c ∈ matchingConverters reg key v,
          t ∈ dictKeys (c.convert key v).settings) := by
  have hsub : ∀ c ∈ matchingConverters reg key v, c ∈ reg.converters := by
    intro c hc
    exact (List.mem_filter.mp hc).1
  constructor
  · intro t
    rw [convert_setting_settings reg key v hig]
    rw [foldl_update_map key v (matchingConverters reg key v)]
    rw [dictGet_foldl_dictUpdate]
    rw [foldl_lastSome_map key v t (matchingConverters reg key v)]
    apply foldl_congr_mem
    intro c hc acc
    rw [dictGetLast_eq_dictGet _ _ (hwf c (hsub c hc))]
  · intro t
    rw [convert_setting_settings reg key v hig]
    rw [foldl_update_map key v (matchingConverters reg key v)]
    rw [mem_keys_foldl_dictUpdate]
    constructor
    · rintro (h | ⟨e, he, ht⟩)
      · exact absurd h (List.not_mem_nil t)
      · rcases List.mem_map.mp he with ⟨c, hc, rfl⟩
        exact ⟨c, hc, ht⟩
    · rintro ⟨c, hc, ht⟩
      exact Or.inr ⟨_, List.mem_map_of_mem _ hc, ht⟩

/-- Witness for C4 at a concrete registry: the Direct rule and the Custom rule
both match "a"; the result holds the union of their target keys and the
later Custom rule overwrites the Direct rule on the shared key "t1". -/
theorem convert_setting_fanout_witness :
    dictGet (regFan.convert_setting "a" "val").settings "t1" = some "X" ∧
    dictGet (regFan.convert_setting "a" "val").settings "t2" = some "Y" := by
  have hwf : ∀ c ∈ regFan.converters,
      (dictKeys (c.convert "a" "val").settings).Nodup := by
    intro c hc
    rcases List.mem_cons.mp hc with rfl | hc
    · decide
    · rcases List.mem_cons.mp hc with rfl | hc
      · decide
      · cases hc
  have h := convert_setting_fanout regFan "a" "val" rfl hwf
  constructor
  · rw [h.1 "t1"]
    rfl
  · rw [h.1 "t2"]
    rfl

/-! ### Claim C6: ignored keys, unmatched keys, aggregation -/

theorem convert_dict_acc {V : Type} (reg : ConverterRegistry V) :
    ∀ (d : Dict V) (acc : Dict V × List String),
      d.foldl
        (fun acc kv =>
          let r := reg.convert_setting kv.1 kv.2
          (dictUpdate acc.1 r.settings, acc.2 ++ r.needs_manual_conversion)) acc =
      (d.foldl (fun a kv =>
          dictUpdate a (reg.convert_setting kv.1 kv.2).settings) acc.1,
       acc.2 ++ (d.map (fun kv =>
          (reg.convert_setting kv.1 kv.2).needs_manual_conversion)).flatten)
  | [], acc => by simp
  | kv :: t, acc => by
    simp only [List.foldl_cons, List.map_cons, List.flatten_cons]
    rw [convert_dict_acc reg t]
    simp [List.append_assoc]

/-- C6: an ignored key yields the empty result (no settings, no
manual-conversion report); a key matched by no rule and not ignored yields
exactly that key as needing manual conversion; and converting a whole dict
aggregates the manual-conversion reports over all fields while folding all
converted settings together. -/
theorem convert_ignored_and_unmatched {V : Type} (reg : ConverterRegistry V)
    (key : String) (v : V) (d : Dict V) :
    (reg.ignored_keys.contains key = true →
      reg.convert_setting key v = ConversionResult.empty V)
    ∧ (reg.ignored_keys.contains key = false →
       matchingConverters reg key v = [] →
      reg.convert_setting key v = ⟨[], [key]⟩)
    ∧ (reg.convert_dict d).2 =
        (d.map (fun kv =>
          (reg.convert_setting kv.1 kv.2).needs_manual_conversion)).flatten
    ∧ (reg.convert_dict d).1 =
        d.foldl (fun acc kv =>
          dictUpdate acc (reg.convert_setting kv.1 kv.2).settings) [] := by
  refine ⟨?_, ?_, ?_, ?_⟩
  · intro h1
    unfold ConverterRegistry.convert_setting
    rw [if_pos h1]
  · intro h1 hm
    have hany : reg.converters.any (fun c => c.can_convert key v) = false := by
      rw [← filter_eq_nil_iff_any_false]
      exact hm
    have hs := convert_setting_settings reg key v h1
    have hn := convert_setting_needs reg key v h1
    rw [hm] at hs hn
    rw [hany] at hn
    simp only [List.foldl_nil, List.map_nil, List.flatten_nil,
      List.nil_append, if_neg (by decide : ¬ (false = true))] at hs hn
    rcases hE : reg.convert_setting key v with ⟨s, n⟩
    rw [hE] at hs hn
    simp only at hs hn
    rw [hs, hn]
  · rw [show reg.convert_dict d = d.foldl
        (fun acc kv =>
          let r := reg.convert_setting kv.1 kv.2
          (dictUpdate acc.1 r.settings, acc.2 ++ r.needs_manual_conversion))
        ([], []) from rfl]
    rw [convert_dict_acc reg d ([], [])]
    simp
  · rw [show reg.convert_dict d = d.foldl
        (fun acc kv =>
          let r := reg.convert_setting kv.1 kv.2
          (dictUpdate acc.1 r.settings, acc.2 ++ r.needs_manual_conversion))
        ([], []) from rfl]
    rw [convert_dict_acc reg d ([], [])]

/-- Witness for C6 at concrete inputs: the ignored key "a" of `regIgnored`
gives the empty result; the unmatched key "zz" is reported; and the
aggregation equation holds on a two-field dict. -/
theorem convert_ignored_and_unmatched_witness :
    regIgnored.convert_setting "a" "x" = ConversionResult.empty String ∧
    regIgnored.convert_setting "zz" "x" = ⟨[], ["zz"]⟩ ∧
    (regIgnored.convert_dict [("a", "1"), ("zz", "2")]).2 = ["zz"] := by
  have h1 := (convert_ignored_and_unmatched regIgnored "a" "x"
    ([("a", "1"), ("zz", "2")] : Dict String)).1 rfl
  have h2 := ((convert_ignored_and_unmatched regIgnored "zz" "x"
    ([("a", "1"), ("zz", "2")] : Dict String)).2).1 rfl rfl
  have h3 := ((convert_ignored_and_unmatched regIgnored "zz" "x"
    ([("a", "1"), ("zz", "2")] : Dict String)).2).2.1
  exact ⟨h1, h2, by rw [h3]; rfl⟩

/-! ### Claim C10: the ignored set takes precedence over rule matching -/

/-- C10: if a source key is registered as ignored, `convert_setting` returns
the empty result even when one or more registered converters match it: no
target settings and no manual-conversion report are produced. -/
theorem ignored_overrides_matching {V : Type} (reg : ConverterRegistry V)
    (key : String) (v : V)
    (hig : reg.ignored_keys.contains key = true)
    (hmatch : ∃ c ∈ reg.converters, c.can_convert key v = true) :
    reg.convert_setting key v = ConversionResult.empty V := by
  unfold ConverterRegistry.convert_setting
  rw [if_pos hig]

/-- Witness for C10: in `regIgnored` the key "a" is both ignored and matched
by the registered Direct rule, and conversion returns the empty result. -/
theorem ignored_overrides_matching_witness :
    regIgnored.convert_setting "a" "x" = ConversionResult.empty String :=
  ignored_overrides_matching regIgnored "a" "x" rfl
    ⟨Converter.simple "a" "t" none, List.mem_cons_self _ _, rfl⟩

/-! ### Claim C1: duplicate-target policy at registration time -/

/-- C1 counterexample: after a Direct rule maps source "a" to target "t",
`register_multi` registers a Merge rule for the same target "t" from the
different source "b" without any error and without any mutually-exclusive
group, so the registry silently holds two Direct/Merge rules for one target
key, contradicting the claim that such a registration is an error. -/
theorem register_multi_unchecked_counterexample :
    exceptIsOk c1RegFirst = true ∧
    c1Reg.converters.map directMergeTarget = [some "t", some "t"] ∧
    c1Reg.mutually_exclusive_groups = [] ∧
    dictGet c1Reg.orca_key_mappings "t" = some "a" ∧
    ("b" : String) ≠ "a" :=
  ⟨rfl, rfl, rfl, rfl, by decide⟩

/-- C1 amended: the duplicate-target policy holds for Direct rules registered
through `register_simple`: when the target key is already claimed by a
different source key, registration succeeds exactly when a declared
mutually-exclusive group for that target lists the new source key, and on
success the canonical claim for the target key is reassigned to the new
source key (last registration wins) and the rule is appended. Merge rules
registered through `register_multi` undergo no such check. -/
theorem register_simple_conflict_policy {V : Type} (reg : ConverterRegistry V)
    (pk ok : String) (tr : Option (V → V)) (existing : String)
    (hex : dictGet reg.orca_key_mappings ok = some existing)
    (hne : existing ≠ pk) :
    (exceptIsOk (reg.register_simple pk ok tr) = true ↔
      ∃ allowed, dictGet reg.mutually_exclusive_groups ok = some allowed ∧
        pk ∈ allowed)
    ∧ (∀ reg', reg.register_simple pk ok tr = .ok reg' →
        dictGet reg'.orca_key_mappings ok = some pk ∧
        reg'.converters = reg.converters ++ [Converter.simple pk ok tr])
    ∧ (∀ regm : ConverterRegistry V, ∀ pks,
        (regm.register_multi pks ok tr).converters =
          regm.converters ++ [Converter.multi pks ok tr]) := by
  refine ⟨?_, ?_, ?_⟩
  · unfold ConverterRegistry.register_simple
    rw [hex]
    simp only [ne_eq, hne, not_false_eq_true, if_true, ite_not]
    rcases hg : dictGet reg.mutually_exclusive_groups ok with _ | allowed
    · simp [exceptIsOk]
    · by_cases hmem : pk ∈ allowed
      · simp [hmem, exceptIsOk]
      · simp [hmem, exceptIsOk]
  · intro reg' hok
    unfold ConverterRegistry.register_simple at hok
    rw [hex] at hok
    simp only [ne_eq, hne, not_false_eq_true, if_true, ite_not] at hok
    rcases hg : dictGet reg.mutually_exclusive_groups ok with _ | allowed <;>
      rw [hg] at hok <;> dsimp only at hok
    · cases hok
    · by_cases hmem : pk ∈ allowed
      · rw [if_pos hmem] at hok
        cases hok
        constructor
        · show dictGet (dictSet reg.orca_key_mappings ok pk) ok = some pk
          rw [dictGet_dictSet]
          simp
        · rfl
      · rw [if_neg hmem] at hok
        cases hok
  · intro regm pks
    rfl

/-- Witness for C1 amended: with target "t" claimed by "a", registering "b"
fails without a group, succeeds and reassigns the claim when the group
declares both, and `register_multi` appends unchecked. -/
theorem register_simple_conflict_policy_witness :
    exceptIsOk ((ConverterRegistry.mk ([] : List (Converter String)) []
        [("t", "a")] []).register_simple "b" "t" none) = false ∧
    exceptIsOk ((ConverterRegistry.mk ([] : List (Converter String)) []
        [("t", "a")] [("t", ["a", "b"])]).register_simple "b" "t" none) = true := by
  have h1 := register_simple_conflict_policy
    (ConverterRegistry.mk ([] : List (Converter String)) [] [("t", "a")] [])
    "b" "t" none "a" rfl (by decide)
  have h2 := register_simple_conflict_policy
    (ConverterRegistry.mk ([] : List (Converter String)) [] [("t", "a")]
      [("t", ["a", "b"])])
    "b" "t" none "a" rfl (by decide)
  constructor
  · cases hv : exceptIsOk ((ConverterRegistry.mk ([] : List (Converter String)) []
        [("t", "a")] []).register_simple "b" "t" none)
    · rfl
    · exfalso
      rcases h1.1.mp hv with ⟨allowed, hal, hmem⟩
      exact Option.noConfusion hal
  · exact h2.1.mpr ⟨["a", "b"], rfl, by decide⟩

/-! ### Resolver lemmas -/

theorem resolveRec_succ {α : Type} (cfg : IniConfig) (tag : String → String → α)
    (fuel : Nat) (cur : String) (st : RState α) :
    resolveRec cfg tag (fuel + 1) cur st =
      if st.visited.contains cur then some st
      else
        match dictGet cfg cur with
        | none => some st
        | some sec =>
          match (match dictGet sec "inherits" with
                 | none => some (RState.mk (st.visited ++ [cur]) st.resolved)
                 | some inh =>
                   (parseParents inh).foldl
                     (parentStep cfg cur (fun n st2 => resolveRec cfg tag fuel n st2))
                     (some (RState.mk (st.visited ++ [cur]) st.resolved))) with
          | none => none
          | some st2 => some ⟨st2.visited, applyFields tag cur sec st2.resolved⟩ := rfl

theorem foldl_matchStep_none {α : Type}
    (f : String → RState α → Option (RState α)) (ms : List String) :
    ms.foldl (matchStep f) none = none := by
  induction ms with
  | nil => rfl
  | cons m t ih => simpa [matchStep] using ih

theorem foldl_parentStep_none {α : Type} (cfg : IniConfig) (current : String)
    (f : String → RState α → Option (RState α)) (ps : List String) :
    ps.foldl (parentStep cfg current f) none = none := by
  induction ps with
  | nil => rfl
  | cons p t ih => simpa [parentStep] using ih

theorem foldl_matchStep_visited {α : Type}
    (f : String → RState α → Option (RState α))
    (hf : ∀ n st st', f n st = some st' → ∃ l, st'.visited = st.visited ++ l) :
    ∀ (ms : List String) (st st' : RState α),
      ms.foldl (matchStep f) (some st) = some st' →
      ∃ l, st'.visited = st.visited ++ l := by
  intro ms
  induction ms with
  | nil =>
    intro st st' h
    cases h
    exact ⟨[], (List.append_nil _).symm⟩
  | cons m t ih =>
    intro st st' h
    simp only [List.foldl_cons, matchStep] at h
    rcases hm : f m st with _ | stm
    · rw [hm] at h
      rw [foldl_matchStep_none] at h
      cases h
    · rw [hm] at h
      rcases hf m st stm hm with ⟨l1, hl1⟩
      rcases ih stm st' h with ⟨l2, hl2⟩
      exact ⟨l1 ++ l2, by rw [hl2, hl1, List.append_assoc]⟩

theorem foldl_parentStep_visited {α : Type} (cfg : IniConfig) (current : String)
    (f : String → RState α → Option (RState α))
    (hf : ∀ n st st', f n st = some st' → ∃ l, st'.visited = st.visited ++ l) :
    ∀ (ps : List String) (st st' : RState α),
      ps.foldl (parentStep cfg current f) (some st) = some st' →
      ∃ l, st'.visited = st.visited ++ l := by
  intro ps
  induction ps with
  | nil =>
    intro st st' h
    cases h
    exact ⟨[], (List.append_nil _).symm⟩
  | cons p t ih =>
    intro st st' h
    simp only [List.foldl_cons, parentStep] at h
    by_cases hw : isWildcard p
    · rw [if_pos hw] at h
      rcases hm : (wildcardMatches cfg p).foldl (matchStep f) (some st) with _ | stm
      · rw [hm] at h
        rw [foldl_parentStep_none] at h
        cases h
      · rw [hm] at h
        rcases foldl_matchStep_visited f hf (wildcardMatches cfg p) st stm hm with
          ⟨l1, hl1⟩
        rcases ih stm st' h with ⟨l2, hl2⟩
        exact ⟨l1 ++ l2, by rw [hl2, hl1, List.append_assoc]⟩
    · rw [if_neg hw] at h
      rcases hpl : parentLookup cfg current p with _ | fn
      · rw [hpl] at h
        dsimp only at h
        exact ih st st' h
      · rw [hpl] at h
        dsimp only at h
        rcases hm : f fn st with _ | stm
        · rw [hm] at h
          rw [foldl_parentStep_none] at h
          cases h
        · rw [hm] at h
          rcases hf fn st stm hm with ⟨l1, hl1⟩
          rcases ih stm st' h with ⟨l2, hl2⟩
          exact ⟨l1 ++ l2, by rw [hl2, hl1, List.append_assoc]⟩

theorem resolveRec_visited {α : Type} (cfg : IniConfig) (tag : String → String → α) :
    ∀ (fuel : Nat) (cur : String) (st st' : RState α),
      resolveRec cfg tag fuel cur st = some st' →
      ∃ l, st'.visited = st.visited ++ l := by
  intro fuel
  induction fuel with
  | zero =>
    intro cur st st' h
    cases h
  | succ n ih =>
    intro cur st st' h
    rw [resolveRec_succ] at h
    by_cases hv : st.visited.contains cur
    · rw [if_pos hv] at h
      cases h
      exact ⟨[], (List.append_nil _).symm⟩
    · rw [if_neg hv] at h
      rcases hcfg : dictGet cfg cur with _ | sec
      · rw [hcfg] at h
        cases h
        exact ⟨[], (List.append_nil _).symm⟩
      · rw [hcfg] at h
        dsimp only at h
        rcases hsec : dictGet sec "inherits" with _ | inh
        · rw [hsec] at h
          dsimp only at h
          cases h
          exact ⟨[cur], rfl⟩
        · rw [hsec] at h
          dsimp only at h
          rcases hfold : (parseParents inh).foldl
              (parentStep cfg cur (fun m st2 => resolveRec cfg tag n m st2))
              (some (RState.mk (st.visited ++ [cur]) st.resolved)) with _ | st2
          · rw [hfold] at h
            cases h
          · rw [hfold] at h
            dsimp only at h
            cases h
            rcases foldl_parentStep_visited cfg cur _
                (fun m stx sty hxy => ih m stx sty hxy)
                (parseParents inh) _ st2 hfold with ⟨l, hl⟩
            exact ⟨[cur] ++ l, by
              show st2.visited = st.visited ++ ([cur] ++ l)
              rw [hl]
              dsimp only
              rw [List.append_assoc]⟩

theorem contains_iff_mem (l : List String) (x : String) :
    l.contains x = true ↔ x ∈ l := by
  induction l with
  | nil => simp
  | cons a t ih => simp [ih]

theorem length_filter_mono (l : List String) (p q : String → Bool)
    (h : ∀ x ∈ l, p x = true → q x = true) :
    (l.filter p).length ≤ (l.filter q).length := by
  induction l with
  | nil => simp
  | cons a t ih =>
    have iht := ih (fun x hx => h x (List.mem_cons_of_mem _ hx))
    by_cases hp : p a
    · have hq := h a (List.mem_cons_self a t) hp
      simp [List.filter_cons, hp, hq]
      exact iht
    · by_cases hq : q a <;> simp [List.filter_cons, hp, hq] <;> omega

theorem length_filter_lt (l : List String) (p q : String → Bool)
    (h : ∀ x ∈ l, p x = true → q x = true) (cur : String) (hm : cur ∈ l)
    (hpc : p cur = false) (hqc : q cur = true) :
    (l.filter p).length < (l.filter q).length := by
  induction l with
  | nil => cases hm
  | cons a t ih =>
    have hmono := length_filter_mono t p q
      (fun x hx => h x (List.mem_cons_of_mem _ hx))
    rcases List.mem_cons.mp hm with rfl | hmt
    · simp [List.filter_cons, hpc, hqc]
      omega
    · have iht := ih (fun x hx => h x (List.mem_cons_of_mem _ hx)) hmt
      by_cases hp : p a
      · have hq := h a (List.mem_cons_self a t) hp
        simp [List.filter_cons, hp, hq]
        exact iht
      · by_cases hq : q a <;> simp [List.filter_cons, hp, hq] <;> omega

theorem unvisitedCount_mono (cfg : IniConfig) (v l : List String) :
    unvisitedCount cfg (v ++ l) ≤ unvisitedCount cfg v := by
  apply length_filter_mono
  intro x _ hx
  rcases hc : v.contains x with _ | _
  · rfl
  · exfalso
    have hx2 : (v ++ l).contains x = true := by
      rw [contains_iff_mem]
      exact List.mem_append_left l ((contains_iff_mem v x).mp hc)
    rw [hx2] at hx
    cases hx

theorem unvisitedCount_append_lt (cfg : IniConfig) (v : List String)
    (cur : String) (hm : cur ∈ sections cfg) (hn : v.contains cur = false) :
    unvisitedCount cfg (v ++ [cur]) < unvisitedCount cfg v := by
  apply length_filter_lt _ _ _ ?_ cur hm
  · have hc : (v ++ [cur]).contains cur = true := by
      rw [contains_iff_mem]
      exact List.mem_append_right v (List.mem_singleton.mpr rfl)
    show (!(v ++ [cur]).contains cur) = false
    rw [hc]
    rfl
  · show (!v.contains cur) = true
    rw [hn]
    rfl
  · intro x _ hx
    rcases hc : v.contains x with _ | _
    · rfl
    · exfalso
      have hx2 : (v ++ [cur]).contains x = true := by
        rw [contains_iff_mem]
        exact List.mem_append_left _ ((contains_iff_mem v x).mp hc)
      rw [hx2] at hx
      cases hx

theorem resolveRec_count_le {α : Type} (cfg : IniConfig)
    (tag : String → String → α) (fuel : Nat) (cur : String) (st st' : RState α)
    (h : resolveRec cfg tag fuel cur st = some st') :
    unvisitedCount cfg st'.visited ≤ unvisitedCount cfg st.visited := by
  rcases resolveRec_visited cfg tag fuel cur st st' h with ⟨l, hl⟩
  rw [hl]
  exact unvisitedCount_mono cfg st.visited l

theorem foldl_matchStep_isSome {α : Type} (cfg : IniConfig)
    (tag : String → String → α) (fuel : Nat)
    (hfS : ∀ n (st : RState α), unvisitedCount cfg st.visited < fuel →
      (resolveRec cfg tag fuel n st).isSome = true) :
    ∀ (ms : List String) (st : RState α),
      unvisitedCount cfg st.visited < fuel →
      ((ms.foldl (matchStep (fun n st2 => resolveRec cfg tag fuel n st2))
        (some st)).isSome) = true := by
  intro ms
  induction ms with
  | nil =>
    intro st _
    rfl
  | cons m t ih =>
    intro st hst
    simp only [List.foldl_cons, matchStep]
    rcases hm : resolveRec cfg tag fuel m st with _ | stm
    · have := hfS m st hst
      rw [hm] at this
      cases this
    · exact ih stm (lt_of_le_of_lt (resolveRec_count_le cfg tag fuel m st stm hm) hst)

theorem foldl_parentStep_isSome {α : Type} (cfg : IniConfig)
    (tag : String → String → α) (fuel : Nat) (current : String)
    (hfS : ∀ n (st : RState α), unvisitedCount cfg st.visited < fuel →
      (resolveRec cfg tag fuel n st).isSome = true) :
    ∀ (ps : List String) (st : RState α),
      unvisitedCount cfg st.visited < fuel →
      ((ps.foldl (parentStep cfg current
          (fun n st2 => resolveRec cfg tag fuel n st2))
        (some st)).isSome) = true := by
  intro ps
  induction ps with
  | nil =>
    intro st _
    rfl
  | cons p t ih =>
    intro st hst
    simp only [List.foldl_cons, parentStep]
    by_cases hw : isWildcard p
    · rw [if_pos hw]
      rcases hm : (wildcardMatches cfg p).foldl
          (matchStep (fun n st2 => resolveRec cfg tag fuel n st2)) (some st) with
        _ | stm
      · have := foldl_matchStep_isSome cfg tag fuel hfS (wildcardMatches cfg p) st hst
        rw [hm] at this
        cases this
      · rcases foldl_matchStep_visited _
            (fun n stx sty hxy => resolveRec_visited cfg tag fuel n stx sty hxy)
            (wildcardMatches cfg p) st stm hm with ⟨l, hl⟩
        have hle : unvisitedCount cfg stm.visited ≤ unvisitedCount cfg st.visited := by
          rw [hl]
          exact unvisitedCount_mono cfg st.visited l
        exact ih stm (lt_of_le_of_lt hle hst)
    · rw [if_neg hw]
      rcases hpl : parentLookup cfg current p with _ | fn
      · dsimp only
        exact ih st hst
      · dsimp only
        rcases hm : resolveRec cfg tag fuel fn st with _ | stm
        · have := hfS fn st hst
          rw [hm] at this
          cases this
        · exact ih stm
            (lt_of_le_of_lt (resolveRec_count_le cfg tag fuel fn st stm hm) hst)

theorem resolveRec_isSome {α : Type} (cfg : IniConfig)
    (tag : String → String → α) :
    ∀ (fuel : Nat) (cur : String) (st : RState α),
      unvisitedCount cfg st.visited < fuel →
      (resolveRec cfg tag fuel cur st).isSome = true := by
  intro fuel
  induction fuel with
  | zero =>
    intro cur st h
    exact absurd h (Nat.not_lt_zero _)
  | succ n ih =>
    intro cur st hst
    rw [resolveRec_succ]
    by_cases hv : st.visited.contains cur
    · rw [if_pos hv]
      rfl
    · rw [if_neg hv]
      rcases hcfg : dictGet cfg cur with _ | sec
      · rfl
      · dsimp only
        have hmem : cur ∈ sections cfg := dictGet_mem_keys cfg cur sec hcfg
        have hv' : st.visited.contains cur = false := by
          rcases hvv : st.visited.contains cur with _ | _
          · rfl
          · exact absurd hvv hv
        have hlt : unvisitedCount cfg (st.visited ++ [cur]) < n := by
          have h1 := unvisitedCount_append_lt cfg st.visited cur hmem hv'
          omega
        rcases hsec : dictGet sec "inherits" with _ | inh
        · rfl
        · dsimp only
          rcases hfold : (parseParents inh).foldl
              (parentStep cfg cur (fun m st2 => resolveRec cfg tag n m st2))
              (some (RState.mk (st.visited ++ [cur]) st.resolved)) with _ | st2
          · have := foldl_parentStep_isSome cfg tag n cur ih (parseParents inh)
              (RState.mk (st.visited ++ [cur]) st.resolved) hlt
            rw [hfold] at this
            cases this
          · rfl

/-! ### Field-application lemmas -/

theorem applyFields_cons {α : Type} (tag : String → String → α) (cur : String)
    (kv : String × String) (t : IniSection) (d : Dict α) :
    applyFields tag cur (kv :: t) d =
      applyFields tag cur t
        (if kv.1 == "inherits" then d else dictSet d kv.1 (tag kv.2 cur)) := rfl

theorem applyFields_get_inherits {α : Type} (tag : String → String → α)
    (cur : String) :
    ∀ (sec : IniSection) (d : Dict α),
      dictGet (applyFields tag cur sec d) "inherits" = dictGet d "inherits"
  | [], _ => rfl
  | kv :: t, d => by
    rw [applyFields_cons]
    by_cases hk : kv.1 = "inherits"
    · simp only [hk, beq_self_eq_true, if_true]
      exact applyFields_get_inherits tag cur t d
    · have hb : (kv.1 == "inherits") = false := by simp [hk]
      rw [hb]
      simp only [Bool.false_eq_true, if_false]
      rw [applyFields_get_inherits tag cur t]
      rw [dictGet_dictSet]
      simp [hk]

theorem applyFields_get_not_mem {α : Type} (tag : String → String → α)
    (cur : String) :
    ∀ (sec : IniSection) (d : Dict α) (k : String), k ∉ dictKeys sec →
      dictGet (applyFields tag cur sec d) k = dictGet d k
  | [], _, _, _ => rfl
  | kv :: t, d, k, hk => by
    have hk1 : ¬ kv.1 = k := fun hc => hk (by simp [dictKeys, hc])
    have hkt : k ∉ dictKeys t := fun hc => hk (by
      simp [dictKeys] at hc ⊢
      exact Or.inr hc)
    rw [applyFields_cons]
    by_cases hih : kv.1 = "inherits"
    · simp only [hih, beq_self_eq_true, if_true]
      exact applyFields_get_not_mem tag cur t d k hkt
    · have hb : (kv.1 == "inherits") = false := by simp [hih]
      rw [hb]
      simp only [Bool.false_eq_true, if_false]
      rw [applyFields_get_not_mem tag cur t _ k hkt]
      rw [dictGet_dictSet]
      simp [hk1]

theorem applyFields_get_own {α : Type} (tag : String → String → α)
    (cur : String) :
    ∀ (sec : IniSection) (d : Dict α) (k v : String),
      (dictKeys sec).Nodup → k ≠ "inherits" → dictGet sec k = some v →
      dictGet (applyFields tag cur sec d) k = some (tag v cur)
  | [], _, _, _, _, _, hv => by cases hv
  | kv :: t, d, k, v, hnd, hk, hv => by
    have hndt : (dictKeys t).Nodup := (List.nodup_cons.mp hnd).2
    have hni : kv.1 ∉ dictKeys t := (List.nodup_cons.mp hnd).1
    rw [applyFields_cons]
    by_cases hk1 : kv.1 = k
    · have hveq : v = kv.2 := by
        rw [dictGet_cons] at hv
        simp [hk1] at hv
        exact hv.symm
      have hih : (kv.1 == "inherits") = false := by
        simp [hk1, hk]
      rw [hih]
      simp only [Bool.false_eq_true, if_false]
      rw [applyFields_get_not_mem tag cur t _ k (hk1 ▸ hni)]
      rw [dictGet_dictSet]
      simp [hk1, hveq]
    · have hvt : dictGet t k = some v := by
        rw [dictGet_cons] at hv
        simpa [hk1] using hv
      by_cases hih : kv.1 = "inherits"
      · simp only [hih, beq_self_eq_true, if_true]
        exact applyFields_get_own tag cur t d k v hndt hk hvt
      · have hb : (kv.1 == "inherits") = false := by simp [hih]
        rw [hb]
        simp only [Bool.false_eq_true, if_false]
        exact applyFields_get_own tag cur t _ k v hndt hk hvt

/-! ### Totality and own-field lemmas for resolve_profile -/

theorem unvisitedCount_nil (cfg : IniConfig) :
    unvisitedCount cfg [] = cfg.length := by
  have h : (sections cfg).filter (fun s => !([] : List String).contains s) =
      sections cfg :=
    List.filter_eq_self.mpr (fun a _ => rfl)
  rw [unvisitedCount, h, sections, List.length_map]

theorem resolveRec_initial_isSome {α : Type} (cfg : IniConfig)
    (tag : String → String → α) (cur : String) :
    (resolveRec cfg tag (initialFuel cfg) cur ⟨[], []⟩).isSome = true := by
  apply resolveRec_isSome
  show unvisitedCount cfg [] < initialFuel cfg
  rw [unvisitedCount_nil]
  exact Nat.lt_succ_self _

theorem resolve_profile_isSome (cfg : IniConfig) (name : String) :
    (resolve_profile cfg name).isSome = true := by
  unfold resolve_profile
  by_cases h : (dictGet cfg name).isNone
  · rw [if_pos h]
    rfl
  · rw [if_neg h]
    rcases hrr : resolveRec cfg plainTag (initialFuel cfg) name ⟨[], []⟩ with _ | st
    · have := resolveRec_initial_isSome cfg plainTag name
      rw [hrr] at this
      cases this
    · rfl

theorem resolve_profile_with_source_isSome (cfg : IniConfig) (name : String) :
    (resolve_profile_with_source cfg name).isSome = true := by
  unfold resolve_profile_with_source
  by_cases h : (dictGet cfg name).isNone
  · rw [if_pos h]
    rfl
  · rw [if_neg h]
    rcases hrr : resolveRec cfg sourceTag (initialFuel cfg) name ⟨[], []⟩ with _ | st
    · have := resolveRec_initial_isSome cfg sourceTag name
      rw [hrr] at this
      cases this
    · rfl

theorem resolveRec_own_fields {α : Type} (cfg : IniConfig)
    (tag : String → String → α) (fuel : Nat) (cur : String) (st st' : RState α)
    (sec : IniSection) (k v : String)
    (hv : st.visited.contains cur = false)
    (hcfg : dictGet cfg cur = some sec)
    (hnd : (dictKeys sec).Nodup) (hk : k ≠ "inherits")
    (hkv : dictGet sec k = some v)
    (h : resolveRec cfg tag (fuel + 1) cur st = some st') :
    dictGet st'.resolved k = some (tag v cur) := by
  rw [resolveRec_succ] at h
  rw [if_neg (by rw [hv]; exact Bool.false_ne_true)] at h
  rw [hcfg] at h
  dsimp only at h
  rcases hsec : dictGet sec "inherits" with _ | inh
  · rw [hsec] at h
    dsimp only at h
    cases h
    exact applyFields_get_own tag cur sec _ k v hnd hk hkv
  · rw [hsec] at h
    dsimp only at h
    rcases hfold : (parseParents inh).foldl
        (parentStep cfg cur (fun m st2 => resolveRec cfg tag fuel m st2))
        (some (RState.mk (st.visited ++ [cur]) st.resolved)) with _ | st2
    · rw [hfold] at h
      cases h
    · rw [hfold] at h
      dsimp only at h
      cases h
      exact applyFields_get_own tag cur sec _ k v hnd hk hkv

theorem resolve_profile_own (cfg : IniConfig) (name : String) (sec : IniSection)
    (k v : String)
    (hcfg : dictGet cfg name = some sec)
    (hnd : (dictKeys sec).Nodup) (hk : k ≠ "inherits")
    (hkv : dictGet sec k = some v) :
    (resolve_profile cfg name).bind (fun r => dictGet r k) = some v := by
  unfold resolve_profile
  rw [if_neg (by rw [hcfg]; simp)]
  rcases hrr : resolveRec cfg plainTag (initialFuel cfg) name ⟨[], []⟩ with _ | st
  · have := resolveRec_initial_isSome cfg plainTag name
    rw [hrr] at this
    cases this
  · have hrr2 : resolveRec cfg plainTag (cfg.length + 1) name ⟨[], []⟩ = some st :=
      hrr
    have hres := resolveRec_own_fields cfg plainTag cfg.length name ⟨[], []⟩ st
      sec k v rfl hcfg hnd hk hkv hrr2
    show dictGet st.resolved k = some v
    exact hres

/-! ### Claim C2: cycle safety of inheritance resolution -/

/-- C2 amended: for every store in which A inherits from B and B inherits
from A, `ProfileParser.resolve_profile` resolves both records: the visited
set breaks the cycle, the resolution returns for any stack budget at least
`initialFuel`, and each resolved profile contains at least that record's own
direct fields with their literal values. -/
theorem resolve_profile_cycle_safe (cfg : IniConfig) (a b : String)
    (sa sb : IniSection)
    (ha : dictGet cfg a = some sa) (hb : dictGet cfg b = some sb)
    (hia : dictGet sa "inherits" = some b) (hib : dictGet sb "inherits" = some a)
    (hnda : (dictKeys sa).Nodup) (hndb : (dictKeys sb).Nodup) :
    ((resolve_profile cfg a).isSome = true ∧
      (resolve_profile cfg b).isSome = true)
    ∧ (∀ k v, k ≠ "inherits" → dictGet sa k = some v →
        (resolve_profile cfg a).bind (fun r => dictGet r k) = some v)
    ∧ (∀ k v, k ≠ "inherits" → dictGet sb k = some v →
        (resolve_profile cfg b).bind (fun r => dictGet r k) = some v) := by
  refine ⟨⟨resolve_profile_isSome cfg a, resolve_profile_isSome cfg b⟩, ?_, ?_⟩
  · intro k v hk hkv
    exact resolve_profile_own cfg a sa k v ha hnda hk hkv
  · intro k v hk hkv
    exact resolve_profile_own cfg b sb k v hb hndb hk hkv

/-- Witness for C2 amended at the concrete two-record cycle store. -/
theorem resolve_profile_cycle_safe_witness :
    (resolve_profile cfgCycle "A").bind (fun r => dictGet r "x") = some "1" ∧
    (resolve_profile cfgCycle "B").bind (fun r => dictGet r "y") = some "2" := by
  have h := resolve_profile_cycle_safe cfgCycle "A" "B"
    [("inherits", "B"), ("x", "1")] [("inherits", "A"), ("y", "2")]
    rfl rfl rfl rfl (by decide) (by decide)
  exact ⟨h.2.1 "x" "1" (by decide) rfl, h.2.2 "y" "2" (by decide) rfl⟩

/-- C2 counterexample: `PrintProfileConverter._resolve_inherited_settings`
keeps no visited set, so on the same mutual-inheritance store it exhausts
every stack budget: the Python original recurses forever and crashes with a
RecursionError instead of terminating. -/
theorem resolve_inherited_cycle_diverges :
    inheritedDiverges (ConverterRegistry.empty String) cycProfiles profCycA := by
  have key : ∀ fuel,
      resolveInheritedRec (ConverterRegistry.empty String) cycProfiles fuel
        profCycA = none ∧
      resolveInheritedRec (ConverterRegistry.empty String) cycProfiles fuel
        profCycB = none := by
    intro fuel
    induction fuel with
    | zero => exact ⟨rfl, rfl⟩
    | succ n ih =>
      constructor
      · have h1 : resolveInheritedRec (ConverterRegistry.empty String)
            cycProfiles (n + 1) profCycA =
            (match resolveInheritedRec (ConverterRegistry.empty String)
                cycProfiles n profCycB with
             | none => none
             | some parent_settings =>
               some (dictUpdate (dictUpdate [] parent_settings)
                 ((ConverterRegistry.empty String).convert_dict profCycB).1)) := rfl
        rw [h1, ih.2]
      · have h2 : resolveInheritedRec (ConverterRegistry.empty String)
            cycProfiles (n + 1) profCycB =
            (match resolveInheritedRec (ConverterRegistry.empty String)
                cycProfiles n profCycA with
             | none => none
             | some parent_settings =>
               some (dictUpdate (dictUpdate [] parent_settings)
                 ((ConverterRegistry.empty String).convert_dict profCycA).1)) := rfl
        rw [h2, ih.1]
  exact fun fuel => (key fuel).1

/-! ### Claim C8: unresolvable parent references are silently skipped -/

/-- C8: a parent reference that resolves neither as an exact section name nor
as a type-prefixed candidate is skipped: the parent loop continues on the
remaining parents from an unchanged state, resolution as a whole still
returns, and likewise a parent name missing from the converter profile cache
contributes nothing to `_resolve_inherited_settings`. -/
theorem missing_parent_skipped :
    (∀ (cfg : IniConfig) (current p : String) (ps : List String)
        (st : RState String) (fuel : Nat),
      isWildcard p = false → parentLookup cfg current p = none →
      (p :: ps).foldl
          (parentStep cfg current (fun n st2 => resolveRec cfg plainTag fuel n st2))
          (some st) =
        ps.foldl
          (parentStep cfg current (fun n st2 => resolveRec cfg plainTag fuel n st2))
          (some st))
    ∧ (∀ (cfg : IniConfig) (name : String),
        (resolve_profile cfg name).isSome = true)
    ∧ (∀ (reg : ConverterRegistry String) (all_profiles : Dict (Dict String))
        (f : Dict String → Option (Dict String)) (p : String) (ps : List String)
        (merged : Dict String),
      dictGet all_profiles p = none →
      (p :: ps).foldl (inheritedStep reg all_profiles f) (some merged) =
        ps.foldl (inheritedStep reg all_profiles f) (some merged)) := by
  refine ⟨?_, fun cfg name => resolve_profile_isSome cfg name, ?_⟩
  · intro cfg current p ps st fuel hw hpl
    simp [List.foldl_cons, parentStep, hw, hpl]
  · intro reg all_profiles f p ps merged hpl
    simp only [List.foldl_cons, inheritedStep, hpl]

/-- Witness for C8 at a concrete store: the parent "ghost" of record C
matches nothing, resolution still succeeds and picks up both the real parent
B and the record's own field; the converter-side parent loop likewise skips
a missing parent. -/
theorem missing_parent_skipped_witness :
    parentLookup cfgMissing "C" "ghost" = none ∧
    (resolve_profile cfgMissing "C").bind (fun r => dictGet r "k") = some "2" ∧
    (resolve_profile cfgMissing "C").bind (fun r => dictGet r "c") = some "3" ∧
    (["ghost", "B"].foldl
        (parentStep cfgMissing "C"
          (fun n st2 => resolveRec cfgMissing plainTag 2 n st2))
        (some ⟨["C"], []⟩) =
      ["B"].foldl
        (parentStep cfgMissing "C"
          (fun n st2 => resolveRec cfgMissing plainTag 2 n st2))
        (some ⟨["C"], []⟩)) ∧
    (["ghost"].foldl
        (inheritedStep (ConverterRegistry.empty String) cycProfiles
          (fun pd => resolveInheritedRec (ConverterRegistry.empty String)
            cycProfiles 5 pd))
        (some []) = some []) := by
  refine ⟨by decide, by decide, by decide, ?_, ?_⟩
  · exact missing_parent_skipped.1 cfgMissing "C" "ghost" ["B"] ⟨["C"], []⟩ 2
      (by decide) (by decide)
  · exact missing_parent_skipped.2.2 (ConverterRegistry.empty String) cycProfiles
      (fun pd => resolveInheritedRec (ConverterRegistry.empty String)
        cycProfiles 5 pd) "ghost" [] [] (by decide)

/-! ### Claim C5: override precedence among multiple parents -/

/-- C5 counterexample: in `cfgShadow`, C inherits [A, B] in that order, A and
B both directly define k with different values and C does not define k; yet
resolving C yields the value of A, not of B, because the shared visited set
marks B while resolving A (A inherits from B), so the later-listed parent B
is skipped when its turn comes. -/
theorem later_parent_wins_counterexample :
    dictGet (get_direct_settings cfgShadow "A") "k" = some "1" ∧
    dictGet (get_direct_settings cfgShadow "B") "k" = some "2" ∧
    dictGet (get_direct_settings cfgShadow "C") "k" = none ∧
    parseParents "A;B" = ["A", "B"] ∧
    (resolve_profile cfgShadow "C").bind (fun r => dictGet r "k") = some "1" ∧
    (resolve_profile cfgShadow "B").bind (fun r => dictGet r "k") = some "2" := by
  refine ⟨by decide, by decide, by decide, by decide, by decide, by decide⟩

/-- C5 amended: with C inheriting [A, B] in that order, the later-listed
parent B wins for a key k that A and B both define directly and C does not,
provided B has not already been visited while resolving the earlier parent A
(in particular whenever A does not transitively inherit from B); and a key
that C defines directly always resolves to C's own literal value. -/
theorem later_parent_wins :
    (∀ (cfg : IniConfig) (c a b fb : String) (secC sb : IniSection)
        (inh k v : String) (stA : RState String),
      dictGet cfg c = some secC →
      dictGet secC "inherits" = some inh →
      parseParents inh = [a, b] →
      isWildcard b = false →
      parentLookup cfg c b = some fb →
      dictGet cfg fb = some sb →
      (dictKeys sb).Nodup →
      k ≠ "inherits" →
      dictGet sb k = some v →
      dictGet secC k = none →
      parentStep cfg c (fun n st2 => resolveRec cfg plainTag cfg.length n st2)
        (some ⟨[c], []⟩) a = some stA →
      stA.visited.contains fb = false →
      ((resolve_profile cfg c).bind (fun r => dictGet r k) = some v ∧
       (resolve_profile cfg fb).bind (fun r => dictGet r k) = some v))
    ∧ (∀ (cfg : IniConfig) (c : String) (secC : IniSection) (k v : String),
      dictGet cfg c = some secC → (dictKeys secC).Nodup → k ≠ "inherits" →
      dictGet secC k = some v →
      (resolve_profile cfg c).bind (fun r => dictGet r k) = some v) := by
  constructor
  · intro cfg c a b fb secC sb inh k v stA hc hinh hps hwb hlb hbfb hndb hk hkv
      hkc hA hnb
    have hmemc : c ∈ sections cfg := dictGet_mem_keys cfg c secC hc
    have hcountc : unvisitedCount cfg [c] < cfg.length := by
      have h1 := unvisitedCount_append_lt cfg [] c hmemc rfl
      have h2 := unvisitedCount_nil cfg
      simpa [h2] using h1
    have hA' : [a].foldl
        (parentStep cfg c (fun n st2 => resolveRec cfg plainTag cfg.length n st2))
        (some ⟨[c], []⟩) = some stA := hA
    rcases foldl_parentStep_visited cfg c _
        (fun n stx sty hxy =>
          resolveRec_visited cfg plainTag cfg.length n stx sty hxy)
        [a] ⟨[c], []⟩ stA hA' with ⟨l, hl⟩
    have hcountA : unvisitedCount cfg stA.visited < cfg.length := by
      have hle : unvisitedCount cfg stA.visited ≤ unvisitedCount cfg [c] := by
        rw [show stA.visited = RState.visited ⟨[c], ([] : Dict String)⟩ ++ l from hl]
        exact unvisitedCount_mono cfg _ l
      omega
    rcases hB : resolveRec cfg plainTag cfg.length fb stA with _ | stB
    · exfalso
      have hS := resolveRec_isSome cfg plainTag cfg.length fb stA hcountA
      rw [hB] at hS
      cases hS
    · have hpos : 0 < cfg.length := by
        rcases cfg with _ | ⟨p, t⟩
        · cases hc
        · simp
      obtain ⟨m, hm⟩ : ∃ m, cfg.length = m + 1 := ⟨cfg.length - 1, by omega⟩
      have hB' : resolveRec cfg plainTag (m + 1) fb stA = some stB := hm ▸ hB
      have hBk : dictGet stB.resolved k = some v :=
        resolveRec_own_fields cfg plainTag m fb stA stB sb k v hnb hbfb hndb hk
          hkv hB'
      have hstep_b : parentStep cfg c
          (fun n st2 => resolveRec cfg plainTag cfg.length n st2)
          (some stA) b = some stB := by
        show (match (some stA : Option (RState String)) with
          | none => none
          | some st =>
            if isWildcard b then
              (wildcardMatches cfg b).foldl
                (matchStep (fun n st2 => resolveRec cfg plainTag cfg.length n st2))
                (some st)
            else
              match parentLookup cfg c b with
              | none => some st
              | some full_name =>
                resolveRec cfg plainTag cfg.length full_name st) = some stB
        dsimp only
        rw [if_neg (by rw [hwb]; exact Bool.false_ne_true)]
        rw [hlb]
        exact hB
      have hfold2 : [a, b].foldl
          (parentStep cfg c (fun n st2 => resolveRec cfg plainTag cfg.length n st2))
          (some ⟨[c], []⟩) = some stB := by
        rw [List.foldl_cons, hA, List.foldl_cons, hstep_b]
        rfl
      have htop : resolveRec cfg plainTag (cfg.length + 1) c ⟨[], []⟩ =
          some ⟨stB.visited, applyFields plainTag c secC stB.resolved⟩ := by
        rw [resolveRec_succ]
        rw [if_neg (by exact Bool.false_ne_true)]
        rw [hc]
        dsimp only
        rw [hinh]
        dsimp only
        rw [hps]
        have e1 : RState.mk (([] : List String) ++ [c]) ([] : Dict String) =
            (⟨[c], []⟩ : RState String) := rfl
        rw [e1, hfold2]
      have hcr : resolve_profile cfg c =
          some (applyFields plainTag c secC stB.resolved) := by
        unfold resolve_profile
        rw [if_neg (by rw [hc]; simp)]
        rw [show initialFuel cfg = cfg.length + 1 from rfl]
        rw [htop]
        rfl
      constructor
      · rw [hcr]
        show dictGet (applyFields plainTag c secC stB.resolved) k = some v
        rw [applyFields_get_not_mem plainTag c secC stB.resolved k ?_]
        · exact hBk
        · intro hmem
          have := (dictGet_isSome_iff_mem secC k).mpr hmem
          rw [hkc] at this
          cases this
      · exact resolve_profile_own cfg fb sb k v hbfb hndb hk hkv
  · intro cfg c secC k v hc hnd hk hkv
    exact resolve_profile_own cfg c secC k v hc hnd hk hkv

/-- Witness for C5 amended at `cfgTwoParents`, where the parents are
independent: the later parent B supplies k, and a directly defined key keeps
its own value. -/
theorem later_parent_wins_witness :
    ((resolve_profile cfgTwoParents "C").bind (fun r => dictGet r "k") =
      some "2" ∧
     (resolve_profile cfgTwoParents "B").bind (fun r => dictGet r "k") =
      some "2") ∧
    (resolve_profile cfgTwoParents "A").bind (fun r => dictGet r "k") =
      some "1" := by
  constructor
  · exact later_parent_wins.1 cfgTwoParents "C" "A" "B" "B"
      [("inherits", "A;B")] [("k", "2")] "A;B" "k" "2"
      ⟨["C", "A"], [("k", "1")]⟩
      rfl rfl (by decide) (by decide) (by decide) rfl (by decide) (by decide)
      rfl (by decide) (by decide) (by decide)
  · exact later_parent_wins.2 cfgTwoParents "A" [("k", "1")] "k" "1"
      rfl (by decide) (by decide) rfl

/-! ### Claim C9: the inherits directive never leaks into results -/

theorem dictGet_filter_inherits (sec : IniSection) :
    dictGet (sec.filter (fun kv => kv.1 != "inherits")) "inherits" = none := by
  induction sec with
  | nil => rfl
  | cons kv t ih =>
    by_cases hk : kv.1 = "inherits"
    · simp [List.filter_cons, hk, ih]
    · simp [List.filter_cons, hk, dictGet_cons, ih]

theorem foldl_matchStep_inherits {α : Type}
    (f : String → RState α → Option (RState α))
    (hf : ∀ n st st', f n st = some st' →
      dictGet st.resolved "inherits" = none →
      dictGet st'.resolved "inherits" = none) :
    ∀ (ms : List String) (st st' : RState α),
      ms.foldl (matchStep f) (some st) = some st' →
      dictGet st.resolved "inherits" = none →
      dictGet st'.resolved "inherits" = none := by
  intro ms
  induction ms with
  | nil =>
    intro st st' h hpre
    cases h
    exact hpre
  | cons m t ih =>
    intro st st' h hpre
    simp only [List.foldl_cons, matchStep] at h
    rcases hm : f m st with _ | stm
    · rw [hm, foldl_matchStep_none] at h
      cases h
    · rw [hm] at h
      exact ih stm st' h (hf m st stm hm hpre)

theorem foldl_parentStep_inherits {α : Type} (cfg : IniConfig) (current : String)
    (f : String → RState α → Option (RState α))
    (hf : ∀ n st st', f n st = some st' →
      dictGet st.resolved "inherits" = none →
      dictGet st'.resolved "inherits" = none) :
    ∀ (ps : List String) (st st' : RState α),
      ps.foldl (parentStep cfg current f) (some st) = some st' →
      dictGet st.resolved "inherits" = none →
      dictGet st'.resolved "inherits" = none := by
  intro ps
  induction ps with
  | nil =>
    intro st st' h hpre
    cases h
    exact hpre
  | cons p t ih =>
    intro st st' h hpre
    simp only [List.foldl_cons, parentStep] at h
    by_cases hw : isWildcard p
    · rw [if_pos hw] at h
      rcases hm : (wildcardMatches cfg p).foldl (matchStep f) (some st) with _ | stm
      · rw [hm, foldl_parentStep_none] at h
        cases h
      · rw [hm] at h
        exact ih stm st' h
          (foldl_matchStep_inherits f hf (wildcardMatches cfg p) st stm hm hpre)
    · rw [if_neg hw] at h
      rcases hpl : parentLookup cfg current p with _ | fn
      · rw [hpl] at h
        dsimp only at h
        exact ih st st' h hpre
      · rw [hpl] at h
        dsimp only at h
        rcases hm : f fn st with _ | stm
        · rw [hm, foldl_parentStep_none] at h
          cases h
        · rw [hm] at h
          exact ih stm st' h (hf fn st stm hm hpre)

theorem resolveRec_inherits {α : Type} (cfg : IniConfig)
    (tag : String → String → α) :
    ∀ (fuel : Nat) (cur : String) (st st' : RState α),
      resolveRec cfg tag fuel cur st = some st' →
      dictGet st.resolved "inherits" = none →
      dictGet st'.resolved "inherits" = none := by
  intro fuel
  induction fuel with
  | zero =>
    intro cur st st' h
    cases h
  | succ n ih =>
    intro cur st st' h hpre
    rw [resolveRec_succ] at h
    by_cases hv : st.visited.contains cur
    · rw [if_pos hv] at h
      cases h
      exact hpre
    · rw [if_neg hv] at h
      rcases hcfg : dictGet cfg cur with _ | sec
      · rw [hcfg] at h
        cases h
        exact hpre
      · rw [hcfg] at h
        dsimp only at h
        rcases hsec : dictGet sec "inherits" with _ | inh
        · rw [hsec] at h
          dsimp only at h
          cases h
          rw [applyFields_get_inherits]
          exact hpre
        · rw [hsec] at h
          dsimp only at h
          rcases hfold : (parseParents inh).foldl
              (parentStep cfg cur (fun m st2 => resolveRec cfg tag n m st2))
              (some (RState.mk (st.visited ++ [cur]) st.resolved)) with _ | st2
          · rw [hfold] at h
            cases h
          · rw [hfold] at h
            dsimp only at h
            cases h
            rw [applyFields_get_inherits]
            exact foldl_parentStep_inherits cfg cur _
              (fun m stx sty hxy => ih m stx sty hxy)
              (parseParents inh) _ st2 hfold hpre

/-- C9 counterexample: `profile_parser.ProfileParser.parse` keeps the
`inherits` directive (and an added `name` entry) inside the parsed record's
own field mapping, contradicting the claim that a parsed record's fields
never include the inherits key. -/
theorem parse_keeps_inherits_counterexample :
    profile_parse ["[print:X]", "inherits = base"] =
      some [("print", OutVal.blocks [[("name", PPVal.str "X"),
        ("inherits", PPVal.str "base")]])] := by
  decide

/-- C9 amended: the comparison-side accessors never emit the `inherits`
directive: `get_direct_settings` filters it out, and neither
`resolve_profile` nor `resolve_profile_with_source` ever stores a key named
`inherits` in a resolved mapping. (The raw record mapping produced by
`profile_parser.parse`, in contrast, does retain the directive.) -/
theorem resolver_never_emits_inherits (cfg : IniConfig) (s : String) :
    dictGet (get_direct_settings cfg s) "inherits" = none
    ∧ (∀ r, resolve_profile cfg s = some r → dictGet r "inherits" = none)
    ∧ (∀ r, resolve_profile_with_source cfg s = some r →
        dictGet r "inherits" = none) := by
  refine ⟨?_, ?_, ?_⟩
  · unfold get_direct_settings
    rcases dictGet cfg s with _ | sec
    · rfl
    · exact dictGet_filter_inherits sec
  · intro r h
    unfold resolve_profile at h
    by_cases hn : (dictGet cfg s).isNone
    · rw [if_pos hn] at h
      cases h
      rfl
    · rw [if_neg hn] at h
      rcases hrr : resolveRec cfg plainTag (initialFuel cfg) s ⟨[], []⟩ with _ | st
      · rw [hrr] at h
        cases h
      · rw [hrr] at h
        cases h
        exact resolveRec_inherits cfg plainTag (initialFuel cfg) s ⟨[], []⟩ st
          hrr rfl
  · intro r h
    unfold resolve_profile_with_source at h
    by_cases hn : (dictGet cfg s).isNone
    · rw [if_pos hn] at h
      cases h
      rfl
    · rw [if_neg hn] at h
      rcases hrr : resolveRec cfg sourceTag (initialFuel cfg) s ⟨[], []⟩ with _ | st
      · rw [hrr] at h
        cases h
      · rw [hrr] at h
        cases h
        exact resolveRec_inherits cfg sourceTag (initialFuel cfg) s ⟨[], []⟩ st
          hrr rfl

/-- Witness for C9 amended at the cyclic store: both resolvers return
mappings free of the `inherits` key even though every record carries the
directive. -/
theorem resolver_never_emits_inherits_witness :
    dictGet [("y", "2"), ("x", "1")] "inherits" = none ∧
    dictGet [("y", ("2", "B")), ("x", ("1", "A"))] "inherits" = none := by
  constructor
  · exact (resolver_never_emits_inherits cfgCycle "A").2.1
      [("y", "2"), ("x", "1")] (by decide)
  · exact (resolver_never_emits_inherits cfgCycle "A").2.2
      [("y", ("2", "B")), ("x", ("1", "A"))] (by decide)

/-! ### Claim C7: value normalization in the differ -/

theorem normalize_list_eq_map (l : List PyVal) :
    normalize_list l = l.map normalize_value := by
  induction l with
  | nil => rfl
  | cons v t ih => simp [normalize_list, ih]

theorem cmpStep_fold_get_of_not_mem (orca : Dict PyVal) :
    ∀ (t : Dict PyVal) (acc : Dict PyVal × Dict (PyVal × PyVal)) (k : String),
      k ∉ dictKeys t →
      dictGet (t.foldl (cmpStep orca) acc).2 k = dictGet acc.2 k
  | [], _, _, _ => rfl
  | kv :: t, acc, k, hk => by
    have hk1 : ¬ kv.1 = k := fun hc => hk (by simp [dictKeys, hc])
    have hkt : k ∉ dictKeys t := fun hc => hk (by
      simp [dictKeys] at hc ⊢
      exact Or.inr hc)
    simp only [List.foldl_cons]
    rw [cmpStep_fold_get_of_not_mem orca t _ k hkt]
    unfold cmpStep
    rcases dictGet orca kv.1 with _ | ov
    · rfl
    · dsimp only
      by_cases hbeq : pyValBeq (normalize_value kv.2) (normalize_value ov)
      · rw [if_pos hbeq]
      · rw [if_neg hbeq]
        show dictGet (dictSet acc.2 kv.1 (kv.2, ov)) k = dictGet acc.2 k
        rw [dictGet_dictSet]
        simp [hk1]

theorem cmpStep_fold_reports (d2 : Dict PyVal) (k : String) (v1 v2 : PyVal) :
    ∀ (d1 : Dict PyVal) (acc : Dict PyVal × Dict (PyVal × PyVal)),
      (dictKeys d1).Nodup →
      dictGet d1 k = some v1 → dictGet d2 k = some v2 →
      pyValBeq (normalize_value v1) (normalize_value v2) = false →
      dictGet (d1.foldl (cmpStep d2) acc).2 k = some (v1, v2)
  | [], _, _, hv1, _, _ => by cases hv1
  | kv :: t, acc, hnd, hv1, hv2, hne => by
    have hndt : (dictKeys t).Nodup := (List.nodup_cons.mp hnd).2
    have hni : kv.1 ∉ dictKeys t := (List.nodup_cons.mp hnd).1
    simp only [List.foldl_cons]
    by_cases hk1 : kv.1 = k
    · have hveq : v1 = kv.2 := by
        rw [dictGet_cons] at hv1
        simp [hk1] at hv1
        exact hv1.symm
      rw [cmpStep_fold_get_of_not_mem d2 t _ k (hk1 ▸ hni)]
      unfold cmpStep
      rw [hk1, hv2]
      dsimp only
      rw [hveq] at hne
      rw [if_neg (by rw [hne]; exact Bool.false_ne_true)]
      show dictGet (dictSet acc.2 k (kv.2, v2)) k = some (v1, v2)
      rw [dictGet_dictSet]
      simp [hveq]
    · have hvt : dictGet t k = some v1 := by
        rw [dictGet_cons] at hv1
        simpa [hk1] using hv1
      exact cmpStep_fold_reports d2 k v1 v2 t _ hndt hvt hv2 hne

/-- C7 counterexample: the code does not attempt an integer parse and then a
float parse; it dispatches on the presence of a decimal point. On the string
"1e5" the code leaves the value as a string (int parse fails and no float
parse is attempted), while the normalization described by the spec yields
the number 100000; comparing "1e5" against "100000.0" the code reports a
value difference although the two denote the same number under the spec
normalization. -/
theorem normalize_not_int_then_float :
    normalize_value (PyVal.str "1e5") = PyVal.str "1e5" ∧
    normalize_value_spec (PyVal.str "1e5") = PyVal.num (mkRat 100000 1) ∧
    PyVal.str "1e5" ≠ PyVal.num (mkRat 100000 1) ∧
    (comparePairs [("k", PyVal.str "1e5")] [("k", PyVal.str "100000.0")]).2.2 =
      [("k", (PyVal.str "1e5", PyVal.str "100000.0"))] ∧
    pyValBeq (normalize_value_spec (PyVal.str "1e5"))
      (normalize_value_spec (PyVal.str "100000.0")) = true := by
  refine ⟨rfl, rfl, ?_, rfl, rfl⟩
  intro h
  cases h

/-- C7 amended: normalization parses a string as a float when it contains a
decimal point and as an integer otherwise (falling back to the stripped
string), and recurses into lists element-wise; under it the strings "10" and
"10.0" compare equal, and any key whose two normalized values genuinely
differ is reported in `different_values` with both original values. -/
theorem normalize_and_compare :
    (∀ l, normalize_value (PyVal.list l) = PyVal.list (l.map normalize_value)) ∧
    pyValBeq (normalize_value (PyVal.str "10"))
      (normalize_value (PyVal.str "10.0")) = true ∧
    (comparePairs [("k", PyVal.str "10")] [("k", PyVal.str "10.0")]).2.2 = [] ∧
    (∀ (d1 d2 : Dict PyVal) (k : String) (v1 v2 : PyVal),
      (dictKeys d1).Nodup →
      dictGet d1 k = some v1 → dictGet d2 k = some v2 →
      pyValBeq (normalize_value v1) (normalize_value v2) = false →
      dictGet (comparePairs d1 d2).2.2 k = some (v1, v2)) := by
  refine ⟨?_, rfl, rfl, ?_⟩
  · intro l
    show PyVal.list (normalize_list l) = PyVal.list (l.map normalize_value)
    rw [normalize_list_eq_map]
  · intro d1 d2 k v1 v2 hnd hv1 hv2 hne
    show dictGet (d1.foldl (cmpStep d2) ([], [])).2 k = some (v1, v2)
    exact cmpStep_fold_reports d2 k v1 v2 d1 ([], []) hnd hv1 hv2 hne

/-- Witness for C7 amended: at two concrete one-key profiles whose values
denote different numbers, the key is reported with both values. -/
theorem normalize_and_compare_witness :
    dictGet (comparePairs [("k", PyVal.str "10")]
      [("k", PyVal.str "10.5")]).2.2 "k" =
      some (PyVal.str "10", PyVal.str "10.5") :=
  normalize_and_compare.2.2.2 [("k", PyVal.str "10")] [("k", PyVal.str "10.5")]
    "k" (PyVal.str "10") (PyVal.str "10.5") (by decide) rfl rfl rfl

/-! ### Claim C3: changed records and direct-versus-inherited attribution -/

theorem mem_setAdd (l : List String) (x y : String) :
    x ∈ setAdd l y ↔ x ∈ l ∨ x = y := by
  unfold setAdd
  by_cases hc : l.contains y
  · rw [if_pos hc]
    constructor
    · exact fun h => Or.inl h
    · rintro (h | rfl)
      · exact h
      · exact (contains_iff_mem l x).mp hc
  · rw [if_neg hc]
    simp [List.mem_append]

theorem updated_inv (od nd : Dict String) (pc pc' : ProfileChanges)
    (key : String)
    (hpc : DirectInv od nd pc)
    (hD : dictHas od key = true ∨ dictHas nd key = true)
    (ha : ∀ k, k ∈ dictKeys pc'.added → k ∈ dictKeys pc.added ∨ k = key)
    (hr : ∀ k, k ∈ dictKeys pc'.removed → k ∈ dictKeys pc.removed ∨ k = key)
    (hm : ∀ k, k ∈ dictKeys pc'.modified → k ∈ dictKeys pc.modified ∨ k = key)
    (hd : ∀ k, k ∈ pc.direct_changes ∨ k = key → k ∈ pc'.direct_changes) :
    DirectInv od nd pc' := by
  intro k hk
  have hsrc : (k ∈ dictKeys pc.added ∨ k ∈ dictKeys pc.removed ∨
      k ∈ dictKeys pc.modified) ∨ k = key := by
    rcases hk with h | h | h
    · rcases ha k h with h2 | h2
      · exact Or.inl (Or.inl h2)
      · exact Or.inr h2
    · rcases hr k h with h2 | h2
      · exact Or.inl (Or.inr (Or.inl h2))
      · exact Or.inr h2
    · rcases hm k h with h2 | h2
      · exact Or.inl (Or.inr (Or.inr h2))
      · exact Or.inr h2
  rcases hsrc with h | rfl
  · obtain ⟨h1, h2⟩ := hpc k h
    exact ⟨hd k (Or.inl h1), h2⟩
  · exact ⟨hd k (Or.inr rfl), hD⟩

theorem classifyStep_eq (op np : Dict (String × String)) (od nd : Dict String)
    (pc : ProfileChanges) (key : String) :
    classifyStep op np od nd pc key = pc ∨
    ((∃ e, classifyStep op np od nd pc key =
        { pc with added := dictSet pc.added key e,
                  direct_changes := setAdd pc.direct_changes key }) ∧
      dictHas nd key = true) ∨
    ((∃ e, classifyStep op np od nd pc key =
        { pc with removed := dictSet pc.removed key e,
                  direct_changes := setAdd pc.direct_changes key }) ∧
      dictHas od key = true) ∨
    ((∃ e, classifyStep op np od nd pc key =
        { pc with modified := dictSet pc.modified key e,
                  direct_changes := setAdd pc.direct_changes key }) ∧
      dictHas od key = true) := by
  unfold classifyStep
  rcases ho : dictHas od key with _ | _ <;> rcases hn : dictHas nd key with _ | _
  · left
    simp only [ho, hn]
    rfl
  · right
    left
    refine ⟨⟨((dictGet np key).map (fun p => p.1),
      (dictGet np key).map (fun p => p.2)), ?_⟩, rfl⟩
    simp only [ho, hn]
    rfl
  · right
    right
    left
    refine ⟨⟨((dictGet op key).map (fun p => p.1),
      (dictGet op key).map (fun p => p.2)), ?_⟩, rfl⟩
    simp only [ho, hn]
    rfl
  · rcases heq : ((dictGet od key) == (dictGet nd key)) with _ | _
    · right
      right
      right
      refine ⟨⟨((dictGet od key).getD "", (dictGet nd key).getD "",
        (dictGet op key).map (fun p => p.2),
        (dictGet np key).map (fun p => p.2)), ?_⟩, rfl⟩
      simp only [ho, hn, heq]
      rfl
    · left
      simp only [ho, hn, heq]
      rfl

theorem classifyStep_invariant (op np : Dict (String × String))
    (od nd : Dict String) (pc : ProfileChanges) (key : String)
    (hpc : DirectInv od nd pc) :
    DirectInv od nd (classifyStep op np od nd pc key) := by
  rcases classifyStep_eq op np od nd pc key with h | ⟨⟨e, h⟩, hD⟩ |
      ⟨⟨e, h⟩, hD⟩ | ⟨⟨e, h⟩, hD⟩ <;> rw [h]
  · exact hpc
  · exact updated_inv od nd pc _ key hpc (Or.inr hD)
      (fun k hk => (mem_keys_dictSet pc.added key k e).mp hk)
      (fun k hk => Or.inl hk) (fun k hk => Or.inl hk)
      (fun k hk => (mem_setAdd pc.direct_changes k key).mpr hk)
  · exact updated_inv od nd pc _ key hpc (Or.inl hD)
      (fun k hk => Or.inl hk)
      (fun k hk => (mem_keys_dictSet pc.removed key k e).mp hk)
      (fun k hk => Or.inl hk)
      (fun k hk => (mem_setAdd pc.direct_changes k key).mpr hk)
  · exact updated_inv od nd pc _ key hpc (Or.inl hD)
      (fun k hk => Or.inl hk) (fun k hk => Or.inl hk)
      (fun k hk => (mem_keys_dictSet pc.modified key k e).mp hk)
      (fun k hk => (mem_setAdd pc.direct_changes k key).mpr hk)

theorem classify_fold_invariant (op np : Dict (String × String))
    (od nd : Dict String) :
    ∀ (keys : List String) (pc : ProfileChanges), DirectInv od nd pc →
      DirectInv od nd (keys.foldl (classifyStep op np od nd) pc)
  | [], _, hpc => hpc
  | key :: t, pc, hpc => by
    simp only [List.foldl_cons]
    exact classify_fold_invariant op np od nd t _
      (classifyStep_invariant op np od nd pc key hpc)

theorem classifySection_invariant (cfgO cfgN : IniConfig) (sec : String) :
    DirectInv (get_direct_settings cfgO sec) (get_direct_settings cfgN sec)
      (classifySection cfgO cfgN sec) := by
  apply classify_fold_invariant
  intro k hk
  rcases hk with hk | hk | hk <;> cases hk

/-- C3 counterexample: in two generations where only ancestor P changed key
k directly and descendant Q inherits it, Q's resolved profile changes
between the generations, yet Q is not included in `changed_profiles` at all;
the change is attributed to P, whose computed descendant set lists Q. The
claim that a record with inherited-only changes is included in
changedRecords is therefore false. -/
theorem changed_records_counterexample :
    (resolve_profile cfgC3old "print:Q @COREONE").bind
      (fun r => dictGet r "k") = some "1" ∧
    (resolve_profile cfgC3new "print:Q @COREONE").bind
      (fun r => dictGet r "k") = some "2" ∧
    dictGet (compare_profiles cfgC3old cfgC3new "print").changed_profiles
      "print:Q @COREONE" = none ∧
    dictGet (compare_profiles cfgC3old cfgC3new "print").changed_profiles
      "print:P @COREONE" = some c3PChanges ∧
    c3PChanges.affects = ["print:Q @COREONE"] := by
  refine ⟨by decide, by decide, by decide, by decide, by decide⟩

/-- C3 amended: `compare_profiles` includes a record in `changed_profiles`
only when it has at least one direct change: every included record has a
nonempty `direct_changes` set, and every key recorded as added, removed or
modified is also in `direct_changes` and is literally present in the
record's own direct fields of at least one generation. A key whose change is
visible only in the resolved profile is not reported for the descendant at
all; its record is simply absent from `changed_profiles` unless it also has
some direct change. -/
theorem changed_records_only_direct (cfgO cfgN : IniConfig) (stype s : String)
    (c : ProfileChanges)
    (hc : dictGet (compare_profiles cfgO cfgN stype).changed_profiles s =
      some c) :
    c.direct_changes ≠ [] ∧
    DirectInv (get_direct_settings cfgO s) (get_direct_settings cfgN s) c := by
  have hch : (compare_profiles cfgO cfgN stype).changed_profiles =
      ((get_coreone_sections cfgO stype).filter
        (fun s2 => (get_coreone_sections cfgN stype).contains s2)).foldl
        (fun acc sec =>
          let pc := classifySection cfgO cfgN sec
          if pc.added ≠ [] ∨ pc.removed ≠ [] ∨ pc.modified ≠ [] then
            dictSet acc sec
              { pc with affects := sortStrings (get_all_descendants sec
                  (build_inheritance_tree cfgN stype)) }
          else acc)
        [] := rfl
  rw [hch] at hc
  clear hch
  have main : ∀ (common : List String) (acc : Dict ProfileChanges),
      (∀ s2 c2, dictGet acc s2 = some c2 →
        c2.direct_changes ≠ [] ∧
        DirectInv (get_direct_settings cfgO s2) (get_direct_settings cfgN s2) c2) →
      ∀ s2 c2,
        dictGet (common.foldl
          (fun acc sec =>
            let pc := classifySection cfgO cfgN sec
            if pc.added ≠ [] ∨ pc.removed ≠ [] ∨ pc.modified ≠ [] then
              dictSet acc sec
                { pc with affects := sortStrings (get_all_descendants sec
                    (build_inheritance_tree cfgN stype)) }
            else acc)
          acc) s2 = some c2 →
        c2.direct_changes ≠ [] ∧
        DirectInv (get_direct_settings cfgO s2) (get_direct_settings cfgN s2) c2 := by
    intro common
    induction common with
    | nil =>
      intro acc hacc s2 c2 hc2
      exact hacc s2 c2 hc2
    | cons sec t ih =>
      intro acc hacc s2 c2
      simp only [List.foldl_cons]
      apply ih
      intro s3 c3 hc3
      by_cases hcond : (classifySection cfgO cfgN sec).added ≠ [] ∨
          (classifySection cfgO cfgN sec).removed ≠ [] ∨
          (classifySection cfgO cfgN sec).modified ≠ []
      · rw [if_pos hcond] at hc3
        rw [dictGet_dictSet] at hc3
        by_cases hss : sec = s3
        · rw [if_pos (by simp [hss])] at hc3
          cases hc3
          subst hss
          have hinv := classifySection_invariant cfgO cfgN sec
          have hinv2 : DirectInv (get_direct_settings cfgO sec)
              (get_direct_settings cfgN sec)
              { classifySection cfgO cfgN sec with
                affects := sortStrings (get_all_descendants sec
                  (build_inheritance_tree cfgN stype)) } := by
            intro k hk
            exact hinv k hk
          refine ⟨?_, hinv2⟩
          rcases hcond with hne | hne | hne
          · rcases hK : (classifySection cfgO cfgN sec).added with _ | ⟨p, t2⟩
            · exact absurd hK hne
            · have hmem : p.1 ∈ dictKeys (classifySection cfgO cfgN sec).added := by
                rw [hK]
                exact List.mem_cons_self _ _
              have := (hinv p.1 (Or.inl hmem)).1
              exact List.ne_nil_of_mem this
          · rcases hK : (classifySection cfgO cfgN sec).removed with _ | ⟨p, t2⟩
            · exact absurd hK hne
            · have hmem : p.1 ∈ dictKeys (classifySection cfgO cfgN sec).removed := by
                rw [hK]
                exact List.mem_cons_self _ _
              have := (hinv p.1 (Or.inr (Or.inl hmem))).1
              exact List.ne_nil_of_mem this
          · rcases hK : (classifySection cfgO cfgN sec).modified with _ | ⟨p, t2⟩
            · exact absurd hK hne
            · have hmem : p.1 ∈ dictKeys (classifySection cfgO cfgN sec).modified := by
                rw [hK]
                exact List.mem_cons_self _ _
              have := (hinv p.1 (Or.inr (Or.inr hmem))).1
              exact List.ne_nil_of_mem this
        · rw [if_neg (by simp [hss])] at hc3
          exact hacc s3 c3 hc3
      · rw [if_neg hcond] at hc3
        exact hacc s3 c3 hc3
  exact main _ [] (fun s2 c2 hc2 => by cases hc2) s c hc

/-- Witness for C3 amended at the concrete two-generation store: the change
set reported for record P has a nonempty direct-change set containing k. -/
theorem changed_records_only_direct_witness :
    c3PChanges.direct_changes ≠ [] ∧ "k" ∈ c3PChanges.direct_changes := by
  have h1 : dictGet (compare_profiles cfgC3old cfgC3new "print").changed_profiles
      "print:P @COREONE" = some c3PChanges := by decide
  have h2 := changed_records_only_direct cfgC3old cfgC3new "print"
    "print:P @COREONE" c3PChanges h1
  refine ⟨h2.1, ?_⟩
  have h3 := h2.2 "k" (Or.inr (Or.inr (by decide)))
  exact h3.1
